import Mathlib

/-!
Shallow embedding of the comment-tree reconstruction engine of the
TransLiveCorpus repository (src/livecorpus/parse.py, model.py, quirks.py),
together with proofs about the claims of its specification.

Modelling conventions:
* Python heap objects (`LiveJournalComment` instances) are represented in
  arena style: a `List CNode` indexed by allocation order; `children` and
  `parent` hold arena indices, so mutation of a shared object is explicit.
* A comment fragment (one element of `comment_wraps`) is abstracted to the
  record of answers the parser extracts from its DOM subtree: attribute
  values, adapter classification bits, anchors whose text is exactly
  "Parent" and whose href matches the community domain, the margin-left
  indentation, and the live-content fields.  All fragments satisfy the
  `is_comment` predicate of `_search_parent` (they are the very elements the
  document walk found) and are truthy (non-empty elements), so the sibling
  scan's redundant re-check of that predicate never fires and is elided.
* Machine strings/ints are Lean `String`/`Int`; Python exceptions become the
  `Err` type below; `dict` becomes an association list where insertion
  prepends and lookup takes the first hit (Python overwrite semantics).
-/

set_option maxRecDepth 4000

namespace LiveCorpus

/-- Errors raised by the engine: `snowflake` is `SnowflakeError` (domain
error), `exn` is a plain `Exception` from model.py, and `keyError`,
`indexError`, `attributeError` are the corresponding Python built-ins.
`fuel` marks exhaustion of a recursion budget; it is proved unreachable
where the Python code terminates. -/
inductive Err where
  | snowflake (msg : String)
  | exn (msg : String)
  | keyError
  | indexError
  | attributeError
  | fuel
deriving DecidableEq, Repr

/-- Decidable equality on `Except`, used to evaluate the engine on concrete
documents inside proofs. -/
instance {ε α : Type} [DecidableEq ε] [DecidableEq α] : DecidableEq (Except ε α) := fun a b =>
  match a, b with
  | .error x, .error y =>
    match decEq x y with
    | isTrue h => isTrue (by rw [h])
    | isFalse h => isFalse (fun he => h (by cases he; rfl))
  | .error _, .ok _ => isFalse (fun he => Except.noConfusion he)
  | .ok _, .error _ => isFalse (fun he => Except.noConfusion he)
  | .ok x, .ok y =>
    match decEq x y with
    | isTrue h => isTrue (by rw [h])
    | isFalse h => isFalse (fun he => h (by cases he; rfl))

/-- Abstraction of one comment fragment: the answers of every DOM query the
parser performs on it.  `dataTid` and `idAttr` are the raw attribute values
(`data-tid` / `id`); `seemoreParents` lists the `data-parent` values of
descendants with class `b-leaf-seemore`; `isDeleted`/`isZipped` are the
community adapter's classification answers; `parentAnchors` holds the URL
fragment identifier of each anchor whose visible text is exactly "Parent"
and whose target matches the community's own domain; `marginLeft` is the
integer value of the first `margin-left` dimension of the style attribute
(none when `_comment_indent_from_style` finds no such token);
`authorMarkup` is the text of `.i-ljuser-username b` when present. -/
structure Fragment where
  dataTid : Option String := none
  idAttr : Option String := none
  seemoreParents : List String := []
  isDeleted : Bool := false
  isZipped : Bool := false
  parentAnchors : List String := []
  marginLeft : Option Int := none
  authorMarkup : Option String := none
  published : Nat := 0
  content : String := ""
deriving DecidableEq, Repr, Inhabited

/-- Arena form of `LiveJournalComment`: `children` and `parent` are arena
indices into the heap of allocated comment objects. -/
structure CNode where
  id : String
  deleted : Bool
  published : Option Nat := none
  author : Option String := none
  content : Option String := none
  children : List Nat := []
  parent : Option Nat := none
deriving DecidableEq, Repr, Inhabited

/-- Classmethod `LiveJournalComment.live`. -/
def CNode.live (id : String) (published : Nat) (author : String) (content : String) : CNode :=
  { id := id, deleted := false, published := some published,
    author := some author, content := some content }

/-- Classmethod `LiveJournalComment.dead`. -/
def CNode.dead (id : String) : CNode :=
  { id := id, deleted := true }

/-- Classmethod `LiveJournalComment.zipped`. -/
def CNode.zipped (id : String) : CNode :=
  { id := id, deleted := false }

/-- Python dataclass equality on `LiveJournalComment`: fieldwise comparison,
lists elementwise, `None == object` false.  The object graph may be cyclic
through `parent` back-references, so the comparison takes a recursion budget
(Python itself would exhaust its stack exactly where the budget runs out);
callers pass a budget larger than any acyclic comparison needs. -/
def pyEq (heap : List CNode) : Nat → Nat → Nat → Bool
  | 0, _, _ => false
  | fuel+1, i, j =>
    let a := heap[i]!
    let b := heap[j]!
    a.id == b.id && a.deleted == b.deleted && a.published == b.published &&
      a.author == b.author && a.content == b.content &&
      a.children.length == b.children.length &&
      (List.zip a.children b.children).all (fun p => pyEq heap fuel p.1 p.2) &&
      (match a.parent, b.parent with
       | none, none => true
       | some x, some y => pyEq heap fuel x y
       | _, _ => false)

/-- Method `LiveJournalComment.add_child` (model.py): raises when the child's
id equals the parent's own id, or when the child is `in` the children list
(Python membership by dataclass equality); otherwise appends. -/
def addChild (heap : List CNode) (pIdx cIdx : Nat) : Except Err (List CNode) :=
  let p := heap[pIdx]!
  let c := heap[cIdx]!
  if c.id == p.id then .error (.exn "cannot add self as child")
  else if p.children.any (fun j => pyEq heap (heap.length + 1) cIdx j) then
    .error (.exn "attempt to add duplicate child")
  else .ok (heap.set pIdx { p with children := p.children ++ [cIdx] })

/-- Method `LiveJournalComment.set_parent`: raises when the parent's id equals
the child's own id; otherwise stores the back-reference. -/
def setParent (heap : List CNode) (cIdx pIdx : Nat) : Except Err (List CNode) :=
  if (heap[pIdx]!).id == (heap[cIdx]!).id then .error (.exn "cannot add self as parent")
  else .ok (heap.set cIdx { heap[cIdx]! with parent := some pIdx })

/-- Python truthiness of an `Optional[str]`: `None` and the empty string are
falsy. -/
def truthy : Option String → Bool
  | none => false
  | some s => s != ""

/-- Function `_comment_id_from_url`: the URL's fragment identifier with its
first character stripped. -/
def commentIdFromUrl (frag : String) : String := frag.drop 1

/-- Function `_parent_id_from_href`: the anchors with text "Parent" matching
the community domain are `c.parentAnchors` (each carrying its URL fragment
identifier); exactly one yields its stripped fragment id, several raise, none
yields `none`. -/
def parentIdFromHref (c : Fragment) : Except Err (Option String) :=
  match c.parentAnchors with
  | [] => .ok none
  | [a] => .ok (some (commentIdFromUrl a))
  | _ => .error (.snowflake "Multiple parents?!")

/-- Function `_comment_indent_from_style`: the first margin-left dimension of
the style attribute, or a `SnowflakeError` when there is none. -/
def indentOf (c : Fragment) : Except Err Int :=
  match c.marginLeft with
  | some v => .ok v
  | none => .error (.snowflake "Could not determine indent")

/-- Result of Python `re.match(r't(\d+)', s)`: the maximal run of (ASCII)
digits after a leading `t`, or `none` when the regex does not match at the
start. -/
def tidMatch (s : String) : Option String :=
  match s.toList with
  | 't' :: ch :: rest =>
    if ch.isDigit then some (String.mk (List.takeWhile Char.isDigit (ch :: rest)))
    else none
  | _ => none

/-- Id extraction from the previous sibling in the `indent - 25/30` branch of
`_search_parent`: group 1 of the `t(\d+)` match on `data-tid` (an
`AttributeError` when the regex fails, from `.group` on `None`), else the
`id` attribute with the `ljcmt` prefix stripped (a `KeyError` when absent). -/
def parentIdOfPrevious (previous : Fragment) : Except Err (Option String) :=
  match previous.dataTid with
  | some s =>
    match tidMatch s with
    | some digits => .ok (some digits)
    | none => .error .attributeError
  | none =>
    match previous.idAttr with
    | some i => .ok (some (i.drop 5))
    | none => .error .keyError

/-- Call states of `_search_parent`: the entry point on a fragment with its
filtered previous comment-siblings (nearest first), and the sibling-scan loop
holding the popped sibling and the remaining list. -/
inductive SPCall where
  | search (before : List Fragment) (c : Fragment)
  | find (indent : Int) (previous : Fragment) (rest : List Fragment)

/-- Engine of `_search_parent`, fuelled so that the recursion (the loop pops
one sibling per step, and the equal-indent case re-enters `_search_parent` on
the popped sibling whose own previous siblings are the remaining list) is
structural; `searchParent` supplies fuel that provably suffices. -/
def spGo : Nat → SPCall → Except Err (Option String)
  | 0, _ => .error .fuel
  | fuel+1, .search before c =>
    (match parentIdFromHref c with
     | .error e => .error e
     | .ok fromHref =>
       if truthy fromHref then .ok fromHref
       else
         match indentOf c with
         | .error e => .error e
         | .ok indent =>
           if indent == 0 then .ok none
           else
             match before with
             | [] => .error (.snowflake "no previous siblings found")
             | p :: rest => spGo fuel (.find indent p rest))
  | fuel+1, .find indent previous rest =>
    (match indentOf previous with
     | .error e => .error e
     | .ok previousIndent =>
       if previousIndent > indent then
         match rest with
         | [] => .error .indexError
         | p :: rest2 => spGo fuel (.find indent p rest2)
       else if previousIndent == indent then
         match spGo fuel (.search rest previous) with
         | .error e => .error e
         | .ok r =>
           if truthy r then .ok r
           else .error (.snowflake "Expected a previous parent, none found")
       else if previousIndent == indent - 25 || previousIndent == indent - 30 then
         parentIdOfPrevious previous
       else .error (.snowflake "Could not find parent"))

/-- Function `_search_parent` (parse.py): explicit-link tier, then the
indentation tier scanning backward over the document-order previous
comment-siblings `before` (nearest first). -/
def searchParent (before : List Fragment) (c : Fragment) : Except Err (Option String) :=
  spGo (2 * before.length + 1) (.search before c)

/-- The indentation tier of `_search_parent` in isolation: read the
indentation, treat zero as "root, no parent", fail on an empty
comment-sibling list, and otherwise run the backward scan. -/
def resolveByIndent (before : List Fragment) (c : Fragment) : Except Err (Option String) :=
  match indentOf c with
  | .error e => .error e
  | .ok indent =>
    if indent == 0 then .ok none
    else
      match before with
      | [] => .error (.snowflake "no previous siblings found")
      | p :: rest => spGo (2 * before.length) (.find indent p rest)

/-- Fuel that provably suffices for each `_search_parent` call state. -/
def spNeed : SPCall → Nat
  | .search before _ => 2 * before.length + 1
  | .find _ _ rest => 2 * rest.length + 2

/-- Outcome of the upward ancestor walk of the zipped branch of
`_parse_live_comment`: an ancestor id already in the thread set, or the id
of the topmost (parentless) ancestor, or budget exhausted (a cyclic parent
chain, on which Python would not terminate either). -/
inductive WalkOut where
  | hit
  | top (tid : String)
  | out
deriving DecidableEq, Repr

/-- Upward walk `while parent: thread_id = parent.id; if thread_id in
threads: return; parent = parent.parent` of the zipped branch. -/
def walkUp (heap : List CNode) (threads : List String) : Nat → Nat → WalkOut
  | 0, _ => .out
  | fuel+1, idx =>
    let tid := (heap[idx]!).id
    if tid ∈ threads then .hit
    else
      match (heap[idx]!).parent with
      | none => .top tid
      | some p => walkUp heap threads fuel p

/-- Python `set.add` on the thread-id set (represented as a duplicate-free
list in insertion order). -/
def addThread (threads : List String) (t : String) : List String :=
  if t ∈ threads then threads else threads ++ [t]

/-- Mutable state of `_parse_entry_comments`: the heap of allocated comment
objects, the `parsed` dict (insertion prepends, lookup takes the first hit),
the root list and the thread-id set. -/
structure PState where
  heap : List CNode := []
  parsed : List (String × Nat) := []
  roots : List Nat := []
  threads : List String := []
deriving DecidableEq, Repr, Inhabited

/-- Ids of the current root comments (`[r.id for r in roots]`). -/
def rootIdsOf (heap : List CNode) (roots : List Nat) : List String :=
  roots.map (fun r => (heap[r]!).id)

/-- Test `if reparse_root and reparse_root == thread_id` (Python truthiness
of the optional reparse root, then string equality). -/
def rrEq (rr : Option String) (tid : String) : Bool :=
  match rr with
  | none => false
  | some r => r != "" && r == tid

/-- The node constructed for a live fragment: published time, author markup
text or the `(Anonymous)` sentinel, and content. -/
def liveNode (f : Fragment) (id : String) : CNode :=
  CNode.live id f.published
    (match f.authorMarkup with
     | some t => t
     | none => "(Anonymous)") f.content

/-- Function `_parse_live_comment` (parse.py): the zipped branch allocates a
transient node, resolves its parent, walks up to a thread root and records a
thread id; the live branch extracts author (with the `(Anonymous)` fallback),
roots the fragment directly when it equals the reparse root, and otherwise
attaches it below its resolved parent or roots it. -/
def parseLive (rr : Option String) (prev : List Fragment) (f : Fragment) (id : String)
    (st : PState) : Except Err PState :=
  if f.isZipped then
    let zIdx := st.heap.length
    let heap0 := st.heap ++ [CNode.zipped id]
    let parsed0 := (id, zIdx) :: st.parsed
    match searchParent prev f with
    | .error e => .error e
    | .ok pidOpt =>
      if truthy pidOpt then
        let pid := pidOpt.getD ""
        match parsed0.lookup pid with
        | none => .error .keyError
        | some pIdx =>
          match setParent heap0 zIdx pIdx with
          | .error e => .error e
          | .ok heap1 =>
            match walkUp heap1 st.threads (heap1.length + 1) pIdx with
            | .hit => .ok { st with heap := heap1, parsed := parsed0 }
            | .out => .error .fuel
            | .top tid =>
              if tid ∈ rootIdsOf heap1 st.roots then
                let tid2 := if rrEq rr tid then pid else tid
                .ok { st with
                      heap := heap1
                      parsed := parsed0
                      threads := addThread st.threads tid2 }
              else .error (.snowflake "thread_id was not root")
      else
        .ok { st with
              heap := heap0
              parsed := parsed0
              threads := addThread st.threads id }
  else
    let idx := st.heap.length
    let heap0 := st.heap ++ [liveNode f id]
    let parsed0 := (id, idx) :: st.parsed
    if rrEq rr id then
      .ok { st with heap := heap0, parsed := parsed0, roots := st.roots ++ [idx] }
    else
      match searchParent prev f with
      | .error e => .error e
      | .ok pidOpt =>
        if truthy pidOpt then
          let pid := pidOpt.getD ""
          match parsed0.lookup pid with
          | none => .error .keyError
          | some pIdx =>
            match addChild heap0 pIdx idx with
            | .error e => .error e
            | .ok heap1 =>
              match setParent heap1 idx pIdx with
              | .error e => .error e
              | .ok heap2 => .ok { st with heap := heap2, parsed := parsed0 }
        else
          .ok { st with heap := heap0, parsed := parsed0, roots := st.roots ++ [idx] }

/-- Function `_parse_deleted_comment` (parse.py): allocate a tombstone,
resolve and attach its parent, or root it when parentless.  (The dead
`if not parent` re-check of the source never fires: a dataclass instance is
always truthy.) -/
def parseDeleted (prev : List Fragment) (f : Fragment) (id : String) (st : PState) :
    Except Err PState :=
  let idx := st.heap.length
  let heap0 := st.heap ++ [CNode.dead id]
  let parsed0 := (id, idx) :: st.parsed
  match searchParent prev f with
  | .error e => .error e
  | .ok pidOpt =>
    if truthy pidOpt then
      let pid := pidOpt.getD ""
      match parsed0.lookup pid with
      | none => .error .keyError
      | some pIdx =>
        match addChild heap0 pIdx idx with
        | .error e => .error e
        | .ok heap1 =>
          match setParent heap1 idx pIdx with
          | .error e => .error e
          | .ok heap2 => .ok { st with heap := heap2, parsed := parsed0 }
    else
      .ok { st with heap := heap0, parsed := parsed0, roots := st.roots ++ [idx] }

/-- Per-fragment body of the walk in `_parse_entry_comments`: derive the id
(`data-tid` scheme with the empty case routed to the hidden-group handling,
else the `ljcmt` scheme, else an error), then classify deleted/live. -/
def processOne (rr : Option String) (prev : List Fragment) (f : Fragment) (st : PState) :
    Except Err PState :=
  match f.dataTid with
  | some t =>
    let id := t.drop 1
    if id == "" then
      match f.seemoreParents with
      | [] => .error (.snowflake "fart")
      | p :: _ => .ok { st with threads := addThread st.threads p }
    else if f.isDeleted then parseDeleted prev f id st
    else parseLive rr prev f id st
  | none =>
    match f.idAttr with
    | some s =>
      let id := s.drop 5
      if f.isDeleted then parseDeleted prev f id st
      else parseLive rr prev f id st
    | none => .error (.snowflake "poop")

/-- The document-order walk of `_parse_entry_comments`; `prev` accumulates
the already-visited fragments nearest first, which is exactly the filtered
previous-comment-sibling list the parent search receives. -/
def processComments (rr : Option String) :
    List Fragment → List Fragment → PState → Except Err PState
  | [], _, st => .ok st
  | f :: rest, prev, st =>
    match processOne rr prev f st with
    | .error e => .error e
    | .ok st2 => processComments rr rest (f :: prev) st2

/-- Function `_parse_entry_comments` (parse.py): an empty fragment list means
no comments; otherwise walk the fragments in document order from the empty
state.  The two selector strategies that locate `comment_wraps` are
abstracted into the fragment list itself. -/
def parseEntryComments (frags : List Fragment) (rr : Option String) : Except Err PState :=
  if frags.isEmpty then .ok {}
  else processComments rr frags [] {}

/-- The four site variants of quirks.py. -/
inductive Community where
  | ftm | mtf | genderqueer | transgender
deriving DecidableEq, Repr

/-- The `netloc` field of each variant. -/
def Community.netloc : Community → String
  | .ftm => "ftm"
  | .mtf => "mtf"
  | .genderqueer => "genderqueer"
  | .transgender => "transgender"

/-- `Community.__all_subclasses__`: the fixed registry of the four
variants. -/
def allCommunities : List Community :=
  [.ftm, .mtf, .genderqueer, .transgender]

/-- Classmethod `Community.from_netloc`: filter the registry by netloc, raise
`SnowflakeError` on no match, return the first match otherwise. -/
def Community.fromNetloc (n : String) : Except Err Community :=
  match allCommunities.filter (fun c => c.netloc == n) with
  | [] => .error (.snowflake "Unknown community")
  | c :: _ => .ok c

/-- Scan for the first `://` separator and return the characters up to the
following slash. -/
def netlocChars : List Char → Option (List Char)
  | [] => none
  | ':' :: '/' :: '/' :: rest => some (rest.takeWhile (fun ch => ch ≠ '/'))
  | _ :: rest => netlocChars rest

/-- The `netloc` of `urllib.parse.urlparse` on an absolute URL: the text
between the `://` separator and the next slash (empty when the URL has no
`://`). -/
def netlocOfUrl (url : String) : String :=
  match netlocChars url.toList with
  | some cs => String.mk cs
  | none => ""

/-- `netloc.split(".")[0]`: the prefix of the netloc up to its first dot. -/
def firstLabel (netloc : String) : String :=
  String.mk (netloc.toList.takeWhile (fun ch => ch ≠ '.'))

/-- Function `find_community` (quirks.py): read the document's
self-referential `og:url` meta content, extract the first label of its
network location, and resolve it in the registry. -/
def findCommunity (ogUrl : String) : Except Err Community :=
  Community.fromNetloc (firstLabel (netlocOfUrl ogUrl))

/-- An entry document, abstracted to the `og:url` meta content, the adapter
answers for the entry metadata, the comment fragments in document order, and
the optional next-comment-page link found by `_search_next_comment_page`. -/
structure EntryDoc where
  ogUrl : String := "https://ftm.livejournal.com/1.html"
  subject : String := ""
  published : Nat := 0
  username : String := ""
  content : String := ""
  tags : List String := []
  frags : List Fragment := []
  nextPage : Option String := none
deriving Repr, Inhabited

/-- Result of `parse_entry`: the entry (metadata plus the filtered top-level
comments, as arena indices into `heap`), the thread-id set and the optional
next page. -/
structure EntryParseResult where
  community : Community
  subject : String
  published : Nat
  username : String
  content : String
  tags : List String
  heap : List CNode
  comments : List Nat
  threads : List String
  nextPage : Option String
deriving DecidableEq, Repr

/-- Function `parse_entry` (parse.py): resolve the community, extract the
metadata, build the comment trees and thread set, then filter the root list
by `r.id not in threads`. -/
def parseEntry (doc : EntryDoc) (rr : Option String) : Except Err EntryParseResult :=
  match findCommunity doc.ogUrl with
  | .error e => .error e
  | .ok community =>
    match parseEntryComments doc.frags rr with
    | .error e => .error e
    | .ok st =>
      let comments := st.roots.filter (fun r => decide ((st.heap[r]!).id ∉ st.threads))
      .ok { community := community
            subject := doc.subject
            published := doc.published
            username := doc.username
            content := doc.content
            tags := doc.tags
            heap := st.heap
            comments := comments
            threads := st.threads
            nextPage := doc.nextPage }

/-- The id a fragment contributes when it yields a comment node: the
`data-tid` scheme when that attribute is present (`none` for the empty
placeholder id), else the `ljcmt`-prefixed `id`-attribute scheme. -/
def fragIdOf (f : Fragment) : Option String :=
  match f.dataTid with
  | some t => if t.drop 1 == "" then none else some (t.drop 1)
  | none => f.idAttr.map (fun s => s.drop 5)

/-- A fragment that is an ordinary live comment: not deleted, not zipped,
and carrying a valid id under one of the two id schemes. -/
def liveFragOk (f : Fragment) : Prop :=
  f.isDeleted = false ∧ f.isZipped = false ∧ (fragIdOf f).isSome

/-- Every placement of a comment node: the root list followed by all
children lists in heap order.  A node that is placed exactly once (as a root
or as somebody's child) appears exactly once here. -/
def placements (heap : List CNode) (roots : List Nat) : List Nat :=
  roots ++ heap.flatMap (fun n => n.children)

/-- Structural well-formedness the builder maintains across the walk: root
indices, parsed-map indices and parent links are in bounds, and every
parentless node is either a current root or already recorded in the
thread-id set. -/
def zOkProp (st : PState) : Prop :=
  (∀ r ∈ st.roots, r < st.heap.length) ∧
  (∀ p ∈ st.parsed, p.2 < st.heap.length) ∧
  (∀ i, i < st.heap.length → ∀ q, (st.heap[i]!).parent = some q → q < st.heap.length) ∧
  (∀ i, i < st.heap.length → (st.heap[i]!).parent = none →
    (st.heap[i]!).id ∈ rootIdsOf st.heap st.roots ∨ (st.heap[i]!).id ∈ st.threads)

/-- Children lists are strictly increasing sequences of in-bounds indices
(every attachment appends the latest allocation), and the heap's node ids in
allocation order. -/
def childOkProp (st : PState) : Prop :=
  ∀ n ∈ st.heap, List.Pairwise (fun a b => a < b) n.children ∧
    ∀ c ∈ n.children, c < st.heap.length

/-- Shape of the state after a fragment was rooted: one fresh parentless,
childless node appended to the heap, registered in the parsed map and
appended to the root list. -/
def rootShape (st : PState) (node : CNode) (id : String) (st2 : PState) : Prop :=
  node.parent = none ∧ node.children = [] ∧ node.id = id ∧
  st2 = { st with heap := st.heap ++ [node]
                  parsed := (id, st.heap.length) :: st.parsed
                  roots := st.roots ++ [st.heap.length] }

/-- Shape of the state after a fragment was attached below a parent: one
fresh node appended, its index appended to the parent's children, and its
parent back-reference set. -/
def attachShape (st : PState) (node : CNode) (id : String) (st2 : PState) : Prop :=
  ∃ pIdx, node.parent = none ∧ node.children = [] ∧ node.id = id ∧
    pIdx < st.heap.length ∧ (st.heap[pIdx]!).id ≠ id ∧
    st2 = { st with
            heap := ((st.heap ++ [node]).set pIdx
              { st.heap[pIdx]! with
                children := (st.heap[pIdx]!).children ++ [st.heap.length] }).set
              st.heap.length { node with parent := some pIdx }
            parsed := (id, st.heap.length) :: st.parsed }

/-- Shape of the state after a parentless zipped fragment: a transient node
appended (never rooted), its own id marked in the thread set. -/
def zipRootShape (st : PState) (id : String) (st2 : PState) : Prop :=
  st2 = { st with heap := st.heap ++ [CNode.zipped id]
                  parsed := (id, st.heap.length) :: st.parsed
                  threads := addThread st.threads id }

/-- Shape of the state after a zipped fragment with a resolved parent: the
transient node is appended with its parent reference set (never rooted, no
child registration), and the thread set either is unchanged or gains one
id. -/
def zipAttachShape (st : PState) (id : String) (st2 : PState) : Prop :=
  ∃ pIdx thr2, pIdx < st.heap.length ∧ (st.heap[pIdx]!).id ≠ id ∧
    (thr2 = st.threads ∨ ∃ t, thr2 = addThread st.threads t) ∧
    st2 = { st with
            heap := (st.heap ++ [CNode.zipped id]).set st.heap.length
              { CNode.zipped id with parent := some pIdx }
            parsed := (id, st.heap.length) :: st.parsed
            threads := thr2 }

/-- Shape of the state after a hidden-group placeholder fragment: only the
thread set gains the placeholder's `data-parent` id. -/
def seemoreShape (st : PState) (st2 : PState) : Prop :=
  ∃ p, st2 = { st with threads := addThread st.threads p }

/-! Concrete fragments, documents and states used to evaluate the engine
inside proofs. -/

/-- A live root fragment with id 1 at indentation 0. -/
def wRoot : Fragment := { dataTid := some "t1", marginLeft := some 0 }

/-- A live fragment with id 2 and an explicit Parent link to comment 1. -/
def wChild : Fragment := { dataTid := some "t2", parentAnchors := ["t1"] }

/-- A live fragment with id 3 and an explicit Parent link to comment 1. -/
def wChild3 : Fragment := { dataTid := some "t3", parentAnchors := ["t1"] }

/-- A zipped fragment with id 2 and an explicit Parent link to comment 1. -/
def wZip2 : Fragment := { dataTid := some "t2", isZipped := true, parentAnchors := ["t1"] }

/-- A zipped fragment with id 3 and an explicit Parent link to comment 2. -/
def wZip3 : Fragment := { dataTid := some "t3", isZipped := true, parentAnchors := ["t2"] }

/-- A live root fragment with id 1 and explicit author markup. -/
def wAuthored : Fragment :=
  { dataTid := some "t1", marginLeft := some 0, authorMarkup := some "alice" }

/-- A deleted fragment with id 5 at indentation 25 and no Parent link. -/
def wDeleted : Fragment := { dataTid := some "t5", isDeleted := true, marginLeft := some 25 }

/-- Indentation-only fragments at margins 0, 25, 25 and 50. -/
def wM0 : Fragment := { dataTid := some "t10", marginLeft := some 0 }

/-- Indentation-only fragment at margin 25. -/
def wM25 : Fragment := { dataTid := some "t11", marginLeft := some 25 }

/-- Indentation-only fragment at margin 25, distinct id. -/
def wM25b : Fragment := { dataTid := some "t12", marginLeft := some 25 }

/-- Indentation-only fragment at margin 50. -/
def wM50 : Fragment := { dataTid := some "t13", marginLeft := some 50 }

/-- A fragment with two Parent anchors. -/
def wMulti : Fragment := { parentAnchors := ["t1", "t2"] }

/-- A zipped root fragment with id 1 at indentation 0 (no Parent link). -/
def wZipRoot : Fragment := { dataTid := some "t1", isZipped := true, marginLeft := some 0 }

/-- A document whose only comments are a live root and a zipped reply. -/
def zipDoc : EntryDoc := { frags := [wRoot, wZip2] }

/-- A document with three all-live fragments and distinct ids. -/
def liveDoc : EntryDoc := { frags := [wRoot, wChild, wChild3] }

/-- A document containing two distinct live fragments that share id 2. -/
def dupDoc : EntryDoc := { frags := [wRoot, wChild, wChild] }

/-- A document re-fetched for thread 1 whose target thread is zipped again
one level further down. -/
def rezipDoc : EntryDoc := { frags := [wRoot, wChild, wZip3] }

/-- The result of parsing `zipDoc` (a live root with a zipped reply): the
root is elided from the persisted comments because its id is in the
thread-id set. -/
def zipRes : EntryParseResult :=
  { community := .ftm, subject := "", published := 0, username := "", content := "",
    tags := [],
    heap := [CNode.live "1" 0 "(Anonymous)" "", { id := "2", deleted := false, parent := some 0 }],
    comments := [], threads := ["1"], nextPage := none }

/-- The result of parsing `liveDoc` (three live fragments: a root and two
replies linked to it). -/
def liveRes : EntryParseResult :=
  { community := .ftm, subject := "", published := 0, username := "", content := "",
    tags := [],
    heap := [{ id := "1", deleted := false, published := some 0,
               author := some "(Anonymous)", content := some "", children := [1, 2] },
             { id := "2", deleted := false, published := some 0,
               author := some "(Anonymous)", content := some "", parent := some 0 },
             { id := "3", deleted := false, published := some 0,
               author := some "(Anonymous)", content := some "", parent := some 0 }],
    comments := [0], threads := [], nextPage := none }

/-- A state holding a root comment 1 with child comment 2 (the shape reached
after parsing `wRoot` and `wChild`). -/
def chainState : PState :=
  { heap := [{ id := "1", deleted := false, published := some 0,
               author := some "(Anonymous)", content := some "", children := [1] },
             { id := "2", deleted := false, published := some 0,
               author := some "(Anonymous)", content := some "", parent := some 0 }]
    parsed := [("2", 1), ("1", 0)]
    roots := [0]
    threads := [] }

/-- A state holding one parentless comment 1 whose id is already recorded in
the thread-id set (the shape reached after parsing a zipped root). -/
def markedState : PState :=
  { heap := [{ id := "1", deleted := false }]
    parsed := [("1", 0)]
    roots := []
    threads := ["1"] }

/-! ### Error shapes of the leaf helpers -/

theorem parentIdFromHref_error_eq (c : Fragment) (e : Err)
    (h : parentIdFromHref c = .error e) : e = .snowflake "Multiple parents?!" := by
  unfold parentIdFromHref at h
  split at h <;> simp_all

theorem indentOf_error_eq (c : Fragment) (e : Err)
    (h : indentOf c = .error e) : e = .snowflake "Could not determine indent" := by
  unfold indentOf at h
  split at h <;> simp_all

theorem parentIdOfPrevious_ne_fuel (p : Fragment) :
    parentIdOfPrevious p ≠ .error .fuel := by
  unfold parentIdOfPrevious
  split
  · split <;> simp
  · split <;> simp

/-! ### Fuel adequacy and monotonicity of the parent search -/

theorem spGo_ne_fuel : ∀ (fuel : Nat) (k : SPCall), spNeed k ≤ fuel →
    spGo fuel k ≠ .error .fuel := by
  intro fuel
  induction fuel with
  | zero =>
    intro k hk
    cases k <;> simp [spNeed] at hk
  | succ fuel ih =>
    intro k hk
    cases k with
    | search before c =>
      simp only [spGo]
      cases hpf : parentIdFromHref c with
      | error e =>
        have he := parentIdFromHref_error_eq c e hpf
        simp [he]
      | ok fromHref =>
        by_cases ht : truthy fromHref = true
        · simp [ht]
        · simp only [ht, if_false]
          cases hio : indentOf c with
          | error e =>
            have he := indentOf_error_eq c e hio
            simp [he]
          | ok indent =>
            by_cases hz : (indent == 0) = true
            · simp [hz]
            · simp only [hz, if_false]
              cases before with
              | nil => simp
              | cons p rest =>
                apply ih
                simp [spNeed] at hk ⊢
                omega
    | find ind previous rest =>
      simp only [spGo]
      cases hio : indentOf previous with
      | error e =>
        have he := indentOf_error_eq _ _ hio
        simp [he]
      | ok pind =>
        by_cases hgt : pind > ind
        · simp only [hgt, if_true]
          cases rest with
          | nil => simp
          | cons p rest2 =>
            apply ih
            simp [spNeed] at hk ⊢
            omega
        · simp only [hgt, if_false]
          by_cases heq2 : (pind == ind) = true
          · simp only [heq2, if_true]
            have hsub : spGo fuel (.search rest previous) ≠ .error .fuel := by
              apply ih
              simp [spNeed] at hk ⊢
              omega
            cases hs : spGo fuel (.search rest previous) with
            | error e =>
              have : e ≠ .fuel := by
                intro hcontra
                exact hsub (by rw [hs, hcontra])
              simp [this]
            | ok r =>
              by_cases htr : truthy r = true <;> simp [htr]
          · simp only [heq2, if_false]
            by_cases hdelta : (pind == ind - 25 || pind == ind - 30) = true
            · simp only [hdelta, if_true]
              exact parentIdOfPrevious_ne_fuel previous
            · simp [hdelta]

theorem spGo_mono : ∀ (fuel fuel2 : Nat) (k : SPCall), fuel ≤ fuel2 →
    spGo fuel k ≠ .error .fuel → spGo fuel2 k = spGo fuel k := by
  intro fuel
  induction fuel with
  | zero =>
    intro fuel2 k _ h
    simp [spGo] at h
  | succ fuel ih =>
    intro fuel2 k hle h
    obtain ⟨f2, rfl⟩ : ∃ f2, fuel2 = f2 + 1 := ⟨fuel2 - 1, by omega⟩
    have hle2 : fuel ≤ f2 := by omega
    cases k with
    | search before c =>
      simp only [spGo] at h ⊢
      cases hpf : parentIdFromHref c with
      | error e => rfl
      | ok fromHref =>
        rw [hpf] at h
        by_cases ht : truthy fromHref = true
        · simp [ht]
        · simp only [ht, if_false] at h ⊢
          cases hio : indentOf c with
          | error e => rfl
          | ok indent =>
            rw [hio] at h
            by_cases hz : (indent == 0) = true
            · simp [hz]
            · simp only [hz, if_false] at h ⊢
              cases before with
              | nil => rfl
              | cons p rest => exact ih f2 (.find indent p rest) hle2 h
    | find ind previous rest =>
      simp only [spGo] at h ⊢
      cases hio : indentOf previous with
      | error e => rfl
      | ok pind =>
        rw [hio] at h
        by_cases hgt : pind > ind
        · simp only [hgt, if_true] at h ⊢
          cases rest with
          | nil => rfl
          | cons p rest2 => exact ih f2 (.find ind p rest2) hle2 h
        · simp only [hgt, if_false] at h ⊢
          by_cases heq2 : (pind == ind) = true
          · simp only [heq2, if_true] at h ⊢
            have hsub : spGo fuel (.search rest previous) ≠ .error .fuel := by
              intro hcontra
              rw [hcontra] at h
              simp at h
            rw [ih f2 (.search rest previous) hle2 hsub]
          · simp only [heq2, if_false]
            rfl

theorem spGo_search_eq (fuel : Nat) (before : List Fragment) (c : Fragment)
    (h : 2 * before.length + 1 ≤ fuel) :
    spGo fuel (.search before c) = searchParent before c := by
  unfold searchParent
  exact spGo_mono (2 * before.length + 1) fuel (.search before c) h
    (spGo_ne_fuel _ _ (by simp [spNeed]))

theorem spGo_find_eq (fuel : Nat) (ind : Int) (p : Fragment) (rest : List Fragment)
    (h : 2 * rest.length + 2 ≤ fuel) :
    spGo fuel (.find ind p rest) = spGo (2 * rest.length + 2) (.find ind p rest) :=
  spGo_mono (2 * rest.length + 2) fuel (.find ind p rest) h
    (spGo_ne_fuel _ _ (by simp [spNeed]))

theorem searchParent_ne_fuel (before : List Fragment) (c : Fragment) :
    searchParent before c ≠ .error .fuel :=
  spGo_ne_fuel (2 * before.length + 1) (.search before c) (by simp [spNeed])

/-! ### Unfolding equations for the parent search -/

theorem searchParent_noHref (before : List Fragment) (c : Fragment)
    (hanch : c.parentAnchors = []) :
    searchParent before c = resolveByIndent before c := by
  have hpf : parentIdFromHref c = .ok none := by
    unfold parentIdFromHref
    rw [hanch]
  unfold searchParent resolveByIndent
  simp only [spGo, hpf, truthy]
  rfl

theorem searchParent_cons_eq_find (p : Fragment) (rest : List Fragment) (c : Fragment)
    (ind : Int) (hanch : c.parentAnchors = []) (hml : c.marginLeft = some ind)
    (hz : ind ≠ 0) :
    searchParent (p :: rest) c = spGo (2 * rest.length + 2) (.find ind p rest) := by
  rw [searchParent_noHref _ _ hanch]
  unfold resolveByIndent
  have hio : indentOf c = .ok ind := by
    unfold indentOf
    rw [hml]
  rw [hio]
  have hzb : (ind == 0) = false := by simp [hz]
  simp only [hzb, if_false]
  have : 2 * (p :: rest).length = 2 * rest.length + 2 := by
    simp [List.length_cons]
    ring
  rw [this]
  simp

theorem spGo_find_unfold (ind pind : Int) (p : Fragment) (rest : List Fragment) (fuel : Nat)
    (hpml : p.marginLeft = some pind) :
    spGo (fuel+1) (.find ind p rest) =
      (if pind > ind then
        (match rest with
         | [] => .error .indexError
         | q :: rest2 => spGo fuel (.find ind q rest2))
       else if (pind == ind) = true then
        (match spGo fuel (.search rest p) with
         | .error e => .error e
         | .ok r =>
           if truthy r = true then .ok r
           else .error (.snowflake "Expected a previous parent, none found"))
       else if (pind == ind - 25 || pind == ind - 30) = true then
        parentIdOfPrevious p
       else .error (.snowflake "Could not find parent")) := by
  have hio : indentOf p = .ok pind := by
    unfold indentOf
    rw [hpml]
  simp only [spGo, hio]

/-! ### Claim C3: the indentation tier of parent resolution -/

/-- C3 counterexample: exhausting the sibling list in the middle of the
backward scan does not raise a could-not-find-parent domain error; the `pop`
on the exhausted list raises a bare `IndexError`.  Here the single previous
sibling is more deeply indented (50 over 25), is skipped, and the next pop
fails. -/
theorem claim_C3_counterexample :
    searchParent [wM50] wM25 = .error .indexError ∧
    searchParent [wM50] wM25 ≠ .error (.snowflake "Could not find parent") ∧
    searchParent [wM50] wM25 ≠ .error (.snowflake "no previous siblings found") := by
  refine ⟨by decide, by decide, by decide⟩

/-- C3 (amended): for a fragment resolved by the indentation tier (no
explicit Parent link), indentation 0 yields no parent; a strictly more
indented previous sibling is skipped; an equally indented previous sibling's
own parent is resolved recursively and returned (a missing recursive result
is a domain error); a sibling less indented by exactly 25 or 30 pixels is
itself the parent; any other delta raises the could-not-find-parent domain
error; an initially empty sibling list raises the no-previous-siblings
domain error — but exhausting the list in mid-scan raises a bare index
error, not a domain error. -/
theorem claim_C3_amended :
    (∀ (before : List Fragment) (c : Fragment),
        c.parentAnchors = [] → c.marginLeft = some 0 →
        searchParent before c = .ok none) ∧
    (∀ (c : Fragment) (ind : Int),
        c.parentAnchors = [] → c.marginLeft = some ind → ind ≠ 0 →
        searchParent [] c = .error (.snowflake "no previous siblings found")) ∧
    (∀ (p : Fragment) (rest : List Fragment) (c : Fragment) (ind pind : Int),
        c.parentAnchors = [] → c.marginLeft = some ind → ind ≠ 0 →
        p.marginLeft = some pind → pind > ind → rest ≠ [] →
        searchParent (p :: rest) c = searchParent rest c) ∧
    (∀ (p : Fragment) (c : Fragment) (ind pind : Int),
        c.parentAnchors = [] → c.marginLeft = some ind → ind ≠ 0 →
        p.marginLeft = some pind → pind > ind →
        searchParent [p] c = .error .indexError) ∧
    (∀ (p : Fragment) (rest : List Fragment) (c : Fragment) (ind : Int) (s : String),
        c.parentAnchors = [] → c.marginLeft = some ind → ind ≠ 0 →
        p.marginLeft = some ind →
        searchParent rest p = .ok (some s) → s ≠ "" →
        searchParent (p :: rest) c = .ok (some s)) ∧
    (∀ (p : Fragment) (rest : List Fragment) (c : Fragment) (ind : Int),
        c.parentAnchors = [] → c.marginLeft = some ind → ind ≠ 0 →
        p.marginLeft = some ind →
        searchParent rest p = .ok none →
        searchParent (p :: rest) c =
          .error (.snowflake "Expected a previous parent, none found")) ∧
    (∀ (p : Fragment) (rest : List Fragment) (c : Fragment) (ind pind : Int),
        c.parentAnchors = [] → c.marginLeft = some ind → ind ≠ 0 →
        p.marginLeft = some pind → (pind = ind - 25 ∨ pind = ind - 30) →
        searchParent (p :: rest) c = parentIdOfPrevious p) ∧
    (∀ (p : Fragment) (rest : List Fragment) (c : Fragment) (ind pind : Int),
        c.parentAnchors = [] → c.marginLeft = some ind → ind ≠ 0 →
        p.marginLeft = some pind → ¬ pind > ind → pind ≠ ind →
        pind ≠ ind - 25 → pind ≠ ind - 30 →
        searchParent (p :: rest) c = .error (.snowflake "Could not find parent")) := by
  have hc1 : ∀ (rest : List Fragment), (2 : Nat) * rest.length + 2 = (2 * rest.length + 1) + 1 :=
    fun _ => rfl
  refine ⟨?root, ?empt, ?skip, ?exhaust, ?eqSome, ?eqNone, ?step, ?other⟩
  case root =>
    intro before c hanch hml
    rw [searchParent_noHref _ _ hanch]
    unfold resolveByIndent
    simp [indentOf, hml]
  case empt =>
    intro c ind hanch hml hz
    rw [searchParent_noHref _ _ hanch]
    unfold resolveByIndent
    simp [indentOf, hml, hz]
  case skip =>
    intro p rest c ind pind hanch hml hz hpml hgt hne
    obtain ⟨q, rest2, rfl⟩ : ∃ q rest2, rest = q :: rest2 := by
      cases rest with
      | nil => exact absurd rfl hne
      | cons q r2 => exact ⟨q, r2, rfl⟩
    rw [searchParent_cons_eq_find p _ c ind hanch hml hz]
    rw [searchParent_cons_eq_find q rest2 c ind hanch hml hz]
    rw [hc1 (q :: rest2)]
    rw [spGo_find_unfold ind pind p (q :: rest2) _ hpml]
    simp only [hgt, if_true]
    exact spGo_find_eq _ ind q rest2 (by simp [List.length_cons]; omega)
  case exhaust =>
    intro p c ind pind hanch hml hz hpml hgt
    rw [searchParent_cons_eq_find p [] c ind hanch hml hz]
    rw [hc1 ([] : List Fragment)]
    rw [spGo_find_unfold ind pind p [] _ hpml]
    simp only [hgt, if_true]
  case eqSome =>
    intro p rest c ind s hanch hml hz hpml hrec hs
    rw [searchParent_cons_eq_find p rest c ind hanch hml hz]
    rw [hc1 rest]
    rw [spGo_find_unfold ind ind p rest _ hpml]
    have hsp : spGo (2 * rest.length + 1) (.search rest p) = searchParent rest p := rfl
    rw [hsp, hrec]
    simp [truthy, hs]
  case eqNone =>
    intro p rest c ind hanch hml hz hpml hrec
    rw [searchParent_cons_eq_find p rest c ind hanch hml hz]
    rw [hc1 rest]
    rw [spGo_find_unfold ind ind p rest _ hpml]
    have hsp : spGo (2 * rest.length + 1) (.search rest p) = searchParent rest p := rfl
    rw [hsp, hrec]
    simp [truthy]
  case step =>
    intro p rest c ind pind hanch hml hz hpml hdelta
    rw [searchParent_cons_eq_find p rest c ind hanch hml hz]
    rw [hc1 rest]
    rw [spGo_find_unfold ind pind p rest _ hpml]
    have hngt : ¬ pind > ind := by omega
    have hneq : (pind == ind) = false := by
      simp only [beq_eq_false_iff_ne, ne_eq]
      omega
    have hd : (pind == ind - 25 || pind == ind - 30) = true := by
      rcases hdelta with h | h <;> simp [h]
    simp [hngt, hneq, hd]
  case other =>
    intro p rest c ind pind hanch hml hz hpml hngt hneq hn25 hn30
    rw [searchParent_cons_eq_find p rest c ind hanch hml hz]
    rw [hc1 rest]
    rw [spGo_find_unfold ind pind p rest _ hpml]
    have hneqb : (pind == ind) = false := by
      simp only [beq_eq_false_iff_ne, ne_eq]
      exact hneq
    have hd : (pind == ind - 25 || pind == ind - 30) = false := by
      simp [hn25, hn30]
    simp [hngt, hneqb, hd]

/-- C3 amended, applied: the root, skip, equal, step and mid-scan-exhaust
rules evaluated on concrete fragments at margins 0, 25, 25 and 50. -/
theorem claim_C3_witness :
    searchParent [wM50, wM25, wM0] wM25b = searchParent [wM25, wM0] wM25b ∧
    searchParent [] wM0 = .ok none ∧
    searchParent [wM25, wM0] wM25b = .ok (some "10") ∧
    searchParent [wM0] wM25 = parentIdOfPrevious wM0 ∧
    searchParent [wM50] wM25 = .error .indexError := by
  refine ⟨?s, ?r, ?e, ?p, ?x⟩
  case s =>
    exact claim_C3_amended.2.2.1 wM50 [wM25, wM0] wM25b 25 50 (by decide) (by decide)
      (by decide) (by decide) (by decide) (by decide)
  case r =>
    exact claim_C3_amended.1 [] wM0 (by decide) (by decide)
  case e =>
    exact claim_C3_amended.2.2.2.2.1 wM25 [wM0] wM25b 25 "10" (by decide) (by decide)
      (by decide) (by decide) (by decide) (by decide)
  case p =>
    exact claim_C3_amended.2.2.2.2.2.2.1 wM0 [] wM25 25 0 (by decide) (by decide)
      (by decide) (by decide) (by omega)
  case x =>
    exact claim_C3_amended.2.2.2.1 wM50 wM25 25 50 (by decide) (by decide) (by decide)
      (by decide) (by decide)

/-! ### Claim C7: site-adapter selection -/

/-- C7: adapter selection takes the first label of the network location of
the document's canonical-URL meta field and resolves it in the fixed
registry of exactly the four variants ftm, mtf, genderqueer, transgender;
every other label fails with the unknown-community domain error, with no
fallback. -/
theorem claim_C7 (url : String) :
    (firstLabel (netlocOfUrl url) ∉ ["ftm", "mtf", "genderqueer", "transgender"] →
      findCommunity url = .error (.snowflake "Unknown community")) ∧
    (∀ c : Community, firstLabel (netlocOfUrl url) = c.netloc →
      findCommunity url = .ok c) := by
  constructor
  · intro h
    unfold findCommunity Community.fromNetloc allCommunities
    have h1 : ¬ ("ftm" = firstLabel (netlocOfUrl url)) := by
      intro he
      exact h (by rw [← he]; simp)
    have h2 : ¬ ("mtf" = firstLabel (netlocOfUrl url)) := by
      intro he
      exact h (by rw [← he]; simp)
    have h3 : ¬ ("genderqueer" = firstLabel (netlocOfUrl url)) := by
      intro he
      exact h (by rw [← he]; simp)
    have h4 : ¬ ("transgender" = firstLabel (netlocOfUrl url)) := by
      intro he
      exact h (by rw [← he]; simp)
    have b1 : ("ftm" == firstLabel (netlocOfUrl url)) = false := beq_eq_false_iff_ne.mpr h1
    have b2 : ("mtf" == firstLabel (netlocOfUrl url)) = false := beq_eq_false_iff_ne.mpr h2
    have b3 : ("genderqueer" == firstLabel (netlocOfUrl url)) = false :=
      beq_eq_false_iff_ne.mpr h3
    have b4 : ("transgender" == firstLabel (netlocOfUrl url)) = false :=
      beq_eq_false_iff_ne.mpr h4
    simp [List.filter, Community.netloc, b1, b2, b3, b4]
  · intro c hc
    unfold findCommunity
    rw [hc]
    cases c <;> rfl

/-- C7 applied: a genderqueer document resolves to the genderqueer adapter
and an unknown host fails with the unknown-community error. -/
theorem claim_C7_witness :
    findCommunity "https://genderqueer.livejournal.com/123.html" = .ok .genderqueer ∧
    findCommunity "https://example.livejournal.com/123.html"
      = .error (.snowflake "Unknown community") :=
  ⟨(claim_C7 "https://genderqueer.livejournal.com/123.html").2 .genderqueer (by decide),
   (claim_C7 "https://example.livejournal.com/123.html").1 (by decide)⟩

/-! ### Claim C8: the explicit-link tier of parent resolution -/

/-- C8: with exactly one Parent anchor the explicit-link tier returns the id
extracted from that URL's fragment identifier; with several such anchors it
raises the anomaly domain error; with none it returns no result and
`_search_parent` falls through to the indentation tier. -/
theorem claim_C8 :
    (∀ (c : Fragment) (a : String), c.parentAnchors = [a] →
        parentIdFromHref c = .ok (some (commentIdFromUrl a))) ∧
    (∀ (c : Fragment) (a b : String) (rest : List String),
        c.parentAnchors = a :: b :: rest →
        parentIdFromHref c = .error (.snowflake "Multiple parents?!")) ∧
    (∀ (c : Fragment), c.parentAnchors = [] → parentIdFromHref c = .ok none) ∧
    (∀ (before : List Fragment) (c : Fragment), c.parentAnchors = [] →
        searchParent before c = resolveByIndent before c) := by
  refine ⟨?one, ?many, ?zero, ?fall⟩
  case one =>
    intro c a h
    unfold parentIdFromHref
    rw [h]
  case many =>
    intro c a b rest h
    unfold parentIdFromHref
    rw [h]
  case zero =>
    intro c h
    unfold parentIdFromHref
    rw [h]
  case fall =>
    exact searchParent_noHref

/-- C8 applied: one anchor extracts id 1, two anchors raise the anomaly, no
anchor returns none and resolution continues with the indentation tier. -/
theorem claim_C8_witness :
    parentIdFromHref wChild = .ok (some "1") ∧
    parentIdFromHref wMulti = .error (.snowflake "Multiple parents?!") ∧
    parentIdFromHref wM25 = .ok none ∧
    searchParent [wM0] wM25 = resolveByIndent [wM0] wM25 :=
  ⟨claim_C8.1 wChild "t1" (by decide),
   claim_C8.2.1 wMulti "t1" "t2" [] (by decide),
   claim_C8.2.2.1 wM25 (by decide),
   claim_C8.2.2.2 [wM0] wM25 (by decide)⟩

/-! ### Index and mutation helpers for the arena heap -/

theorem getBang_concat {α : Type} [Inhabited α] (l : List α) (x : α) :
    (l ++ [x])[l.length]! = x := by
  rw [getElem!_pos (l ++ [x]) l.length (by simp)]
  simp

theorem getBang_append_left {α : Type} [Inhabited α] (l l2 : List α) (i : Nat)
    (h : i < l.length) : (l ++ l2)[i]! = l[i]! := by
  rw [getElem!_pos (l ++ l2) i (by simp; omega), getElem!_pos l i h]
  exact List.getElem_append_left h

theorem getBang_set_ne {α : Type} [Inhabited α] (l : List α) (i j : Nat) (v : α)
    (hne : i ≠ j) : (l.set i v)[j]! = l[j]! := by
  by_cases hj : j < l.length
  · rw [getElem!_pos (l.set i v) j (by simp [hj]), getElem!_pos l j hj]
    exact List.getElem_set_ne hne (by simpa using hj)
  · rw [getElem!_neg (l.set i v) j (by simp [hj]), getElem!_neg l j hj]

theorem getBang_set_self {α : Type} [Inhabited α] (l : List α) (i : Nat) (v : α)
    (h : i < l.length) : (l.set i v)[i]! = v := by
  rw [getElem!_pos (l.set i v) i (by simp [h])]
  exact List.getElem_set_self (by simpa using h)

theorem addChild_ok_shape (heap : List CNode) (pIdx cIdx : Nat) (heap1 : List CNode)
    (h : addChild heap pIdx cIdx = .ok heap1) :
    heap1 = heap.set pIdx
      { heap[pIdx]! with children := (heap[pIdx]!).children ++ [cIdx] } ∧
    (heap[cIdx]!).id ≠ (heap[pIdx]!).id := by
  simp only [addChild] at h
  split at h
  · exact absurd h (by simp)
  · split at h
    · exact absurd h (by simp)
    · rename_i hne hdup
      refine ⟨?_, ?_⟩
      · injection h with h2
        rw [← h2]
      · simpa using hne

theorem setParent_ok_shape (heap : List CNode) (cIdx pIdx : Nat) (heap1 : List CNode)
    (h : setParent heap cIdx pIdx = .ok heap1) :
    heap1 = heap.set cIdx { heap[cIdx]! with parent := some pIdx } ∧
    (heap[pIdx]!).id ≠ (heap[cIdx]!).id := by
  simp only [setParent] at h
  split at h
  · exact absurd h (by simp)
  · rename_i hne
    refine ⟨?_, ?_⟩
    · injection h with h2
      rw [← h2]
    · simpa using hne

/-! ### Claim C9: the anonymous-author fallback -/

/-- C9: a live (non-zipped) fragment constructs exactly one comment node,
whose author is the text of the author markup when present and the literal
sentinel `(Anonymous)` otherwise. -/
theorem claim_C9 (rr : Option String) (prev : List Fragment) (f : Fragment) (id : String)
    (st st2 : PState) (hz : f.isZipped = false)
    (h : parseLive rr prev f id st = .ok st2) :
    st2.heap.length = st.heap.length + 1 ∧
    (st2.heap[st.heap.length]!).author =
      some (match f.authorMarkup with
            | some t => t
            | none => "(Anonymous)") := by
  unfold parseLive at h
  rw [hz] at h
  simp only [Bool.false_eq_true, if_false] at h
  split at h
  · injection h with h2
    subst h2
    exact ⟨by simp, by rw [getBang_concat]; cases ham : f.authorMarkup <;> simp [liveNode, CNode.live, ham]⟩
  · split at h
    · exact absurd h (by simp)
    · rename_i pidOpt hspar
      split at h
      · rename_i htr
        split at h
        · exact absurd h (by simp)
        · rename_i pIdx hlk
          split at h
          · exact absurd h (by simp)
          · rename_i heap1 hac
            split at h
            · exact absurd h (by simp)
            · rename_i heap2 hsp2
              injection h with h2
              subst h2
              obtain ⟨hshape1, hne1⟩ := addChild_ok_shape _ _ _ _ hac
              obtain ⟨hshape2, hne2⟩ := setParent_ok_shape _ _ _ _ hsp2
              have hpne : pIdx ≠ st.heap.length := by
                intro hcontra
                apply hne1
                rw [hcontra]
              constructor
              · rw [hshape2, hshape1]
                simp
              · rw [hshape2]
                rw [getBang_set_self _ _ _ (by rw [hshape1]; simp)]
                rw [hshape1]
                rw [getBang_set_ne _ _ _ _ hpne]
                rw [getBang_concat]
                cases ham : f.authorMarkup <;> simp [liveNode, CNode.live, ham]
      · injection h with h2
        subst h2
        exact ⟨by simp, by rw [getBang_concat]; cases ham : f.authorMarkup <;> simp [liveNode, CNode.live, ham]⟩

/-- C9 applied: parsing a live fragment without author markup constructs the
`(Anonymous)` author; with markup, the markup text. -/
theorem claim_C9_witness :
    parseLive none [] wRoot "1" {} = .ok { heap := [CNode.live "1" 0 "(Anonymous)" ""], parsed := [("1", 0)], roots := [0] } ∧
    (({ heap := [CNode.live "1" 0 "(Anonymous)" ""], parsed := [("1", 0)], roots := [0] } : PState).heap.length = ({} : PState).heap.length + 1 ∧
      (({ heap := [CNode.live "1" 0 "(Anonymous)" ""], parsed := [("1", 0)], roots := [0] } : PState).heap[({} : PState).heap.length]!).author = some "(Anonymous)") ∧
    (({ heap := [CNode.live "1" 0 "alice" ""], parsed := [("1", 0)], roots := [0] } : PState).heap[({} : PState).heap.length]!).author = some "alice" := by
  refine ⟨by decide, ?_, ?_⟩
  · exact claim_C9 none [] wRoot "1" {}
      { heap := [CNode.live "1" 0 "(Anonymous)" ""], parsed := [("1", 0)], roots := [0] }
      (by decide) (by decide)
  · exact (claim_C9 none [] wAuthored "1" {}
      { heap := [CNode.live "1" 0 "alice" ""], parsed := [("1", 0)], roots := [0] }
      (by decide) (by decide)).2

/-! ### Claim C10: deleted fragments never consult the reparse root -/

theorem parseDeleted_searchParent_error (prev : List Fragment) (f : Fragment) (id : String)
    (st : PState) (e : Err) (hsp : searchParent prev f = .error e) :
    parseDeleted prev f id st = .error e := by
  unfold parseDeleted
  rw [hsp]

/-- C10: processing a fragment classified as deleted is entirely independent
of the supplied reparse root, and parent resolution runs unconditionally: a
deleted fragment whose resolution fails propagates that failure even when
its id equals the reparse root. -/
theorem claim_C10 :
    (∀ (rr rr2 : Option String) (prev : List Fragment) (f : Fragment) (st : PState),
        f.isDeleted = true →
        processOne rr prev f st = processOne rr2 prev f st) ∧
    (∀ (rr : Option String) (prev : List Fragment) (f : Fragment) (id : String)
        (st : PState) (e : Err),
        f.isDeleted = true → fragIdOf f = some id →
        searchParent prev f = .error e →
        processOne rr prev f st = .error e) := by
  constructor
  · intro rr rr2 prev f st hd
    unfold processOne
    cases htid : f.dataTid with
    | some t =>
      by_cases hempty : (t.drop 1 == "") = true
      · simp [hempty]
      · simp [hempty, hd]
    | none =>
      cases hattr : f.idAttr with
      | some s => simp [hd]
      | none => rfl
  · intro rr prev f id st e hd hid hsp
    unfold processOne
    unfold fragIdOf at hid
    cases htid : f.dataTid with
    | some t =>
      rw [htid] at hid
      by_cases hempty : (t.drop 1 == "") = true
      · simp only [hempty, if_true] at hid
        exact absurd hid (by simp)
      · simp only [hempty, Bool.false_eq_true, if_false, hd, if_true]
        exact parseDeleted_searchParent_error prev f (t.drop 1) st e hsp
    | none =>
      rw [htid] at hid
      cases hattr : f.idAttr with
      | some s =>
        simp only [hd, if_true]
        exact parseDeleted_searchParent_error prev f (s.drop 5) st e hsp
      | none =>
        rw [hattr] at hid
        exact absurd hid (by simp)

/-- C10 applied: a deleted fragment at indentation 25 with no previous
siblings fails parent resolution even though its id equals the reparse root,
and the outcome is identical for any reparse root. -/
theorem claim_C10_witness :
    processOne (some "5") [] wDeleted {} = processOne none [] wDeleted {} ∧
    processOne (some "5") [] wDeleted {}
      = .error (.snowflake "no previous siblings found") :=
  ⟨claim_C10.1 (some "5") none [] wDeleted {} (by decide),
   claim_C10.2 (some "5") [] wDeleted "5" {} (.snowflake "no previous siblings found")
     (by decide) (by decide) (by decide)⟩

/-! ### Claim C2: thread-root exclusion -/

/-- C2: in every successful `parse_entry` result, no id in the thread-id set
appears among the ids of the persisted top-level comments — the builder
filters the root list by the thread set after the walk. -/
theorem claim_C2 (doc : EntryDoc) (rr : Option String) (r : EntryParseResult)
    (h : parseEntry doc rr = .ok r) :
    ∀ tid ∈ r.threads, tid ∉ r.comments.map (fun i => (r.heap[i]!).id) := by
  unfold parseEntry at h
  split at h
  · exact absurd h (by simp)
  · split at h
    · exact absurd h (by simp)
    · rename_i community hcom st hst
      injection h with h2
      subst h2
      intro tid htid hmem
      simp only [List.mem_map] at hmem
      obtain ⟨i, hi, hid⟩ := hmem
      simp only [List.mem_filter] at hi
      have hnot := of_decide_eq_true hi.2
      apply hnot
      rw [hid]
      exact htid

/-- C2 applied: the zipped-reply document yields thread id 1 and a persisted
comment list from which root 1 is absent. -/
theorem claim_C2_witness :
    parseEntry zipDoc none = .ok zipRes ∧ "1" ∈ zipRes.threads ∧
      "1" ∉ zipRes.comments.map (fun i => (zipRes.heap[i]!).id) :=
  ⟨by decide, by decide, claim_C2 zipDoc none zipRes (by decide) "1" (by decide)⟩

/-! ### Claim C5: idempotent thread marking -/

theorem addThread_of_mem (threads : List String) (t : String) (h : t ∈ threads) :
    addThread threads t = threads := by
  unfold addThread
  simp [h]

/-- C5: processing a zipped fragment whose computed thread id is already in
the thread-id set raises no error and leaves the thread-id set (and the root
list) unchanged: the upward walk stops at the first ancestor already marked,
and a parentless zipped fragment re-adds its own id as a no-op. -/
theorem claim_C5 :
    (∀ (rr : Option String) (prev : List Fragment) (f : Fragment) (id : String)
        (st : PState) (pidOpt : Option String) (pIdx : Nat) (heap1 : List CNode),
        f.isZipped = true →
        searchParent prev f = .ok pidOpt → truthy pidOpt = true →
        ((id, st.heap.length) :: st.parsed).lookup (pidOpt.getD "") = some pIdx →
        setParent (st.heap ++ [CNode.zipped id]) st.heap.length pIdx = .ok heap1 →
        walkUp heap1 st.threads (heap1.length + 1) pIdx = .hit →
        parseLive rr prev f id st =
          .ok { st with heap := heap1, parsed := (id, st.heap.length) :: st.parsed }) ∧
    (∀ (rr : Option String) (prev : List Fragment) (f : Fragment) (id : String)
        (st : PState) (pidOpt : Option String),
        f.isZipped = true →
        searchParent prev f = .ok pidOpt → truthy pidOpt = false →
        id ∈ st.threads →
        parseLive rr prev f id st =
          .ok { st with heap := st.heap ++ [CNode.zipped id]
                        parsed := (id, st.heap.length) :: st.parsed }) := by
  constructor
  · intro rr prev f id st pidOpt pIdx heap1 hz hsp htr hlk hsetp hwalk
    unfold parseLive
    simp only [hz, if_true, hsp, htr, hlk, hsetp, hwalk]
  · intro rr prev f id st pidOpt hz hsp htr hmem
    unfold parseLive
    simp only [hz, if_true]
    rw [hsp]
    simp only [htr, Bool.false_eq_true, if_false]
    rw [addThread_of_mem st.threads id hmem]

/-- C5 applied: a zipped reply below an already-marked root, and a parentless
zipped fragment already marked, both succeed without touching the thread
set. -/
theorem claim_C5_witness :
    parseLive none [] wZip2 "2" markedState =
      .ok { markedState with
            heap := [{ id := "1", deleted := false },
                     { id := "2", deleted := false, parent := some 0 }]
            parsed := [("2", 1), ("1", 0)] } ∧
    parseLive none [] wZipRoot "1" markedState =
      .ok { markedState with
            heap := [{ id := "1", deleted := false }, { id := "1", deleted := false }]
            parsed := [("1", 1), ("1", 0)] } :=
  ⟨claim_C5.1 none [] wZip2 "2" markedState (some "1") 0
      [{ id := "1", deleted := false }, { id := "2", deleted := false, parent := some 0 }]
      (by decide) (by decide) (by decide) (by decide) (by decide) (by decide),
   claim_C5.2 none [] wZipRoot "1" markedState none
      (by decide) (by decide) (by decide) (by decide)⟩

/-! ### Claim C6: reparse-root substitution and thread-root validation -/

theorem lookup_mem {α β : Type} [BEq α] (l : List (α × β)) (k : α) (v : β)
    (h : List.lookup k l = some v) : ∃ p ∈ l, p.2 = v := by
  induction l with
  | nil => simp [List.lookup] at h
  | cons hd tl ih =>
    obtain ⟨k1, v1⟩ := hd
    rw [List.lookup] at h
    split at h
    · injection h with h2
      exact ⟨(k1, v1), List.mem_cons_self _ _, h2⟩
    · obtain ⟨p, hp, hpv⟩ := ih h
      exact ⟨p, List.mem_cons_of_mem _ hp, hpv⟩

theorem walkUp_top_spec (heap : List CNode) (threads : List String) :
    ∀ (fuel idx : Nat) (tid : String),
    idx < heap.length →
    (∀ i, i < heap.length → ∀ q, (heap[i]!).parent = some q → q < heap.length) →
    walkUp heap threads fuel idx = .top tid →
    ∃ j, j < heap.length ∧ (heap[j]!).parent = none ∧ (heap[j]!).id = tid ∧
      tid ∉ threads := by
  intro fuel
  induction fuel with
  | zero =>
    intro idx tid hidx hpar h
    simp [walkUp] at h
  | succ fuel ih =>
    intro idx tid hidx hpar h
    simp only [walkUp] at h
    by_cases hmem : (heap[idx]!).id ∈ threads
    · rw [if_pos hmem] at h
      exact absurd h (by simp)
    · rw [if_neg hmem] at h
      cases hp : (heap[idx]!).parent with
      | none =>
        rw [hp] at h
        injection h with h2
        exact ⟨idx, hidx, hp, h2, by rw [← h2]; exact hmem⟩
      | some p =>
        rw [hp] at h
        exact ih p tid (hpar idx hidx p hp) hpar h

theorem rootIdsOf_congr (heap heap2 : List CNode) (roots : List Nat)
    (h : ∀ r ∈ roots, (heap2[r]!) = (heap[r]!)) :
    rootIdsOf heap2 roots = rootIdsOf heap roots := by
  unfold rootIdsOf
  exact List.map_congr_left (fun r hr => by rw [h r hr])

/-- C6: when the upward walk of a zipped fragment tops out at an ancestor
whose id equals the supplied reparse root, the builder records the zipped
fragment's immediate parent id in the thread set instead of the root id (in
a well-formed builder state the top ancestor is always a current root, so no
error intervenes); in every other zipped case the topmost ancestor must be a
member of the current root list, otherwise the inconsistent-tree domain
error is raised. -/
theorem claim_C6 :
    (∀ (rr : Option String) (prev : List Fragment) (f : Fragment) (id : String)
        (st : PState) (pidOpt : Option String) (pIdx : Nat) (heap1 : List CNode)
        (tid : String),
        f.isZipped = true → zOkProp st →
        searchParent prev f = .ok pidOpt → truthy pidOpt = true →
        ((id, st.heap.length) :: st.parsed).lookup (pidOpt.getD "") = some pIdx →
        setParent (st.heap ++ [CNode.zipped id]) st.heap.length pIdx = .ok heap1 →
        walkUp heap1 st.threads (heap1.length + 1) pIdx = .top tid →
        rrEq rr tid = true →
        parseLive rr prev f id st =
          .ok { st with heap := heap1
                        parsed := (id, st.heap.length) :: st.parsed
                        threads := addThread st.threads (pidOpt.getD "") }) ∧
    (∀ (rr : Option String) (prev : List Fragment) (f : Fragment) (id : String)
        (st : PState) (pidOpt : Option String) (pIdx : Nat) (heap1 : List CNode)
        (tid : String),
        f.isZipped = true →
        searchParent prev f = .ok pidOpt → truthy pidOpt = true →
        ((id, st.heap.length) :: st.parsed).lookup (pidOpt.getD "") = some pIdx →
        setParent (st.heap ++ [CNode.zipped id]) st.heap.length pIdx = .ok heap1 →
        walkUp heap1 st.threads (heap1.length + 1) pIdx = .top tid →
        tid ∉ rootIdsOf heap1 st.roots →
        parseLive rr prev f id st = .error (.snowflake "thread_id was not root")) := by
  constructor
  · intro rr prev f id st pidOpt pIdx heap1 tid hz hik hsp htr hlk hsetp hwalk hrr
    obtain ⟨hroots, hparsed, hparents, horphan⟩ := hik
    obtain ⟨hshape, hneid⟩ := setParent_ok_shape _ _ _ _ hsetp
    have hzb : st.heap.length < (st.heap ++ [CNode.zipped id]).length := by simp
    have hlen1 : heap1.length = st.heap.length + 1 := by
      rw [hshape]
      simp
    have hpIdxlt : pIdx < heap1.length := by
      obtain ⟨p, hp, hpv⟩ := lookup_mem _ _ _ hlk
      rcases List.mem_cons.mp hp with hhd | htl
      · rw [hlen1, ← hpv, hhd]
        omega
      · have := hparsed p htl
        omega
    have hpar1 : ∀ i, i < heap1.length → ∀ q, (heap1[i]!).parent = some q →
        q < heap1.length := by
      intro i hi q hq
      by_cases hiz : i = st.heap.length
      · subst hiz
        rw [hshape, getBang_set_self _ _ _ (by simp)] at hq
        simp only at hq
        injection hq with hq2
        omega
      · have hilt : i < st.heap.length := by omega
        rw [hshape, getBang_set_ne _ _ _ _ (fun hc => hiz hc.symm),
          getBang_append_left _ _ _ hilt] at hq
        have := hparents i hilt q hq
        omega
    obtain ⟨j, hj, hjpar, hjid, hjthr⟩ :=
      walkUp_top_spec heap1 st.threads (heap1.length + 1) pIdx tid hpIdxlt hpar1 hwalk
    have hjz : j ≠ st.heap.length := by
      intro hcontra
      subst hcontra
      rw [hshape, getBang_set_self _ _ _ (by simp)] at hjpar
      simp at hjpar
    have hjlt : j < st.heap.length := by omega
    have hj_eq : heap1[j]! = st.heap[j]! := by
      rw [hshape, getBang_set_ne _ _ _ _ (Ne.symm hjz), getBang_append_left _ _ _ hjlt]
    have hrootid_eq : rootIdsOf heap1 st.roots = rootIdsOf st.heap st.roots := by
      apply rootIdsOf_congr
      intro r hr
      have hrlt := hroots r hr
      rw [hshape, getBang_set_ne _ _ _ _ (by omega), getBang_append_left _ _ _ hrlt]
    have hmem : tid ∈ rootIdsOf heap1 st.roots := by
      rw [hrootid_eq]
      rw [hj_eq] at hjpar hjid
      rcases horphan j hjlt hjpar with hin | hin
      · rw [← hjid]
        exact hin
      · exact absurd (hjid ▸ hin) hjthr
    unfold parseLive
    simp only [hz, if_true, hsp, htr, hlk, hsetp, hwalk]
    rw [if_pos hmem]
    simp only [hrr, if_true]
  · intro rr prev f id st pidOpt pIdx heap1 tid hz hsp htr hlk hsetp hwalk hnmem
    unfold parseLive
    simp only [hz, if_true, hsp, htr, hlk, hsetp, hwalk]
    rw [if_neg hnmem]

/-- C6 applied: re-fetching thread 1 and finding its depth-2 reply zipped
again records thread id 2 (the immediate parent), not the reparse root 1. -/
theorem claim_C6_witness :
    zOkProp chainState ∧
    parseLive (some "1") [wChild, wRoot] wZip3 "3" chainState =
      .ok { chainState with
            heap := [{ id := "1", deleted := false, published := some 0,
                       author := some "(Anonymous)", content := some "", children := [1] },
                     { id := "2", deleted := false, published := some 0,
                       author := some "(Anonymous)", content := some "", parent := some 0 },
                     { id := "3", deleted := false, parent := some 1 }]
            parsed := [("3", 2), ("2", 1), ("1", 0)]
            threads := ["2"] } := by
  have hinv : zOkProp chainState := by
    refine ⟨by decide, by decide, ?_, ?_⟩
    · intro i hi q hq
      have hi2 : i < 2 := by simpa [chainState] using hi
      interval_cases i
      · exact Option.noConfusion hq
      · injection hq with h2
        omega
    · intro i hi hp
      have hi2 : i < 2 := by simpa [chainState] using hi
      interval_cases i
      · decide
      · exact Option.noConfusion hp
  refine ⟨hinv, ?_⟩
  exact claim_C6.1 (some "1") [wChild, wRoot] wZip3 "3" chainState (some "2") 1
    [{ id := "1", deleted := false, published := some 0,
       author := some "(Anonymous)", content := some "", children := [1] },
     { id := "2", deleted := false, published := some 0,
       author := some "(Anonymous)", content := some "", parent := some 0 },
     { id := "3", deleted := false, parent := some 1 }]
    "1" (by decide) hinv (by decide) (by decide) (by decide) (by decide) (by decide)
    (by decide)

/-! ### Branch inventory of the per-fragment step -/

theorem parseDeleted_ok_cases (prev : List Fragment) (f : Fragment) (id : String)
    (st st2 : PState) (hz : zOkProp st)
    (h : parseDeleted prev f id st = .ok st2) :
    rootShape st (CNode.dead id) id st2 ∨ attachShape st (CNode.dead id) id st2 := by
  unfold parseDeleted at h
  dsimp only at h
  split at h
  · exact absurd h (by simp)
  · rename_i pidOpt hsp
    split at h
    · rename_i htr
      split at h
      · exact absurd h (by simp)
      · rename_i pIdx hlk
        split at h
        · exact absurd h (by simp)
        · rename_i heap1 hac
          split at h
          · exact absurd h (by simp)
          · rename_i heap2 hsp2
            injection h with h2
            subst h2
            right
            obtain ⟨hshape1, hne1⟩ := addChild_ok_shape _ _ _ _ hac
            obtain ⟨hshape2, hne2⟩ := setParent_ok_shape _ _ _ _ hsp2
            have hplen : pIdx ≠ st.heap.length := by
              intro hc
              subst hc
              exact hne1 rfl
            have hplt : pIdx < st.heap.length := by
              obtain ⟨p, hp, hpv⟩ := lookup_mem _ _ _ hlk
              rcases List.mem_cons.mp hp with hhd | htl
              · rw [hhd] at hpv
                simp only at hpv
                omega
              · have := hz.2.1 p htl
                omega
            have e1 : (st.heap ++ [CNode.dead id])[pIdx]! = st.heap[pIdx]! :=
              getBang_append_left _ _ _ hplt
            have e2 : ∀ v, ((st.heap ++ [CNode.dead id]).set pIdx v)[st.heap.length]!
                = CNode.dead id := fun v => by
              rw [getBang_set_ne _ _ _ _ hplen, getBang_concat]
            refine ⟨pIdx, rfl, rfl, rfl, hplt, ?_, ?_⟩
            · intro hc
              apply hne1
              rw [getBang_concat, e1, hc]
              rfl
            · rw [hshape2, hshape1, e2, e1]
    · injection h with h2
      subst h2
      left
      exact ⟨rfl, rfl, rfl, rfl⟩

theorem parseLive_ok_cases (rr : Option String) (prev : List Fragment) (f : Fragment)
    (id : String) (st st2 : PState) (hz : zOkProp st)
    (h : parseLive rr prev f id st = .ok st2) :
    (f.isZipped = false ∧
      (rootShape st (liveNode f id) id st2 ∨ attachShape st (liveNode f id) id st2)) ∨
    (f.isZipped = true ∧ (zipRootShape st id st2 ∨ zipAttachShape st id st2)) := by
  unfold parseLive at h
  by_cases hzip : f.isZipped = true
  · right
    refine ⟨hzip, ?_⟩
    rw [hzip] at h
    simp only [if_true] at h
    split at h
    · exact absurd h (by simp)
    · rename_i pidOpt hsp
      split at h
      · rename_i htr
        split at h
        · exact absurd h (by simp)
        · rename_i pIdx hlk
          split at h
          · exact absurd h (by simp)
          · rename_i heap1 hsp2
            obtain ⟨hshape2, hne2⟩ := setParent_ok_shape _ _ _ _ hsp2
            have hplen : pIdx ≠ st.heap.length := by
              intro hc
              subst hc
              exact hne2 rfl
            have hplt : pIdx < st.heap.length := by
              obtain ⟨p, hp, hpv⟩ := lookup_mem _ _ _ hlk
              rcases List.mem_cons.mp hp with hhd | htl
              · rw [hhd] at hpv
                simp only at hpv
                omega
              · have := hz.2.1 p htl
                omega
            have e1 : (st.heap ++ [CNode.zipped id])[pIdx]! = st.heap[pIdx]! :=
              getBang_append_left _ _ _ hplt
            have hidne : (st.heap[pIdx]!).id ≠ id := by
              intro hc
              apply hne2
              rw [getBang_concat, e1, hc]
              rfl
            have hheap : heap1 = (st.heap ++ [CNode.zipped id]).set st.heap.length
                { CNode.zipped id with parent := some pIdx } := by
              rw [hshape2, getBang_concat]
            split at h
            · injection h with h2
              subst h2
              right
              exact ⟨pIdx, st.threads, hplt, hidne, Or.inl rfl, by rw [hheap]⟩
            · exact absurd h (by simp)
            · rename_i tid
              split at h
              · injection h with h2
                subst h2
                right
                exact ⟨pIdx, _, hplt, hidne, Or.inr ⟨_, rfl⟩, by rw [hheap]⟩
              · exact absurd h (by simp)
      · injection h with h2
        subst h2
        left
        rfl
  · left
    have hzf : f.isZipped = false := by
      simpa using hzip
    refine ⟨hzf, ?_⟩
    rw [hzf] at h
    simp only [Bool.false_eq_true, if_false] at h
    split at h
    · injection h with h2
      subst h2
      left
      exact ⟨rfl, rfl, rfl, rfl⟩
    · split at h
      · exact absurd h (by simp)
      · rename_i pidOpt hsp
        split at h
        · rename_i htr
          split at h
          · exact absurd h (by simp)
          · rename_i pIdx hlk
            split at h
            · exact absurd h (by simp)
            · rename_i heap1 hac
              split at h
              · exact absurd h (by simp)
              · rename_i heap2 hsp2
                injection h with h2
                subst h2
                right
                obtain ⟨hshape1, hne1⟩ := addChild_ok_shape _ _ _ _ hac
                obtain ⟨hshape2, hne2⟩ := setParent_ok_shape _ _ _ _ hsp2
                have hplen : pIdx ≠ st.heap.length := by
                  intro hc
                  subst hc
                  exact hne1 rfl
                have hplt : pIdx < st.heap.length := by
                  obtain ⟨p, hp, hpv⟩ := lookup_mem _ _ _ hlk
                  rcases List.mem_cons.mp hp with hhd | htl
                  · rw [hhd] at hpv
                    simp only at hpv
                    omega
                  · have := hz.2.1 p htl
                    omega
                have e1 : (st.heap ++ [liveNode f id])[pIdx]! = st.heap[pIdx]! :=
                  getBang_append_left _ _ _ hplt
                have e2 : ∀ v, ((st.heap ++ [liveNode f id]).set pIdx v)[st.heap.length]!
                    = liveNode f id := fun v => by
                  rw [getBang_set_ne _ _ _ _ hplen, getBang_concat]
                refine ⟨pIdx, rfl, rfl, rfl, hplt, ?_, ?_⟩
                · intro hc
                  apply hne1
                  rw [getBang_concat, e1, hc]
                  rfl
                · rw [hshape2, hshape1, e2, e1]
        · injection h with h2
          subst h2
          left
          exact ⟨rfl, rfl, rfl, rfl⟩

theorem processOne_ok_cases (rr : Option String) (prev : List Fragment) (f : Fragment)
    (st st2 : PState) (hz : zOkProp st)
    (h : processOne rr prev f st = .ok st2) :
    (fragIdOf f = none ∧ seemoreShape st st2) ∨
    (∃ id, fragIdOf f = some id ∧
      ((f.isDeleted = false ∧ f.isZipped = false ∧
         (rootShape st (liveNode f id) id st2 ∨ attachShape st (liveNode f id) id st2)) ∨
       (f.isDeleted = true ∧
         (rootShape st (CNode.dead id) id st2 ∨ attachShape st (CNode.dead id) id st2)) ∨
       (f.isDeleted = false ∧ f.isZipped = true ∧
         (zipRootShape st id st2 ∨ zipAttachShape st id st2)))) := by
  unfold processOne at h
  cases htid : f.dataTid with
  | some t =>
    rw [htid] at h
    by_cases hempty : (t.drop 1 == "") = true
    · left
      have hfid : fragIdOf f = none := by
        unfold fragIdOf
        rw [htid]
        simp [hempty]
      refine ⟨hfid, ?_⟩
      simp only [hempty, if_true] at h
      split at h
      · exact absurd h (by simp)
      · rename_i p ps heq
        injection h with h2
        exact ⟨p, h2.symm⟩
    · right
      have hfid : fragIdOf f = some (t.drop 1) := by
        unfold fragIdOf
        rw [htid]
        simp [hempty]
      refine ⟨t.drop 1, hfid, ?_⟩
      simp only [hempty, Bool.false_eq_true, if_false] at h
      by_cases hdel : f.isDeleted = true
      · rw [hdel] at h
        simp only [if_true] at h
        exact Or.inr (Or.inl ⟨hdel, parseDeleted_ok_cases _ _ _ _ _ hz h⟩)
      · have hdf : f.isDeleted = false := by simpa using hdel
        rw [hdf] at h
        simp only [Bool.false_eq_true, if_false] at h
        rcases parseLive_ok_cases _ _ _ _ _ _ hz h with ⟨hzf, hsh⟩ | ⟨hzt, hsh⟩
        · exact Or.inl ⟨hdf, hzf, hsh⟩
        · exact Or.inr (Or.inr ⟨hdf, hzt, hsh⟩)
  | none =>
    rw [htid] at h
    cases hattr : f.idAttr with
    | some sAttr =>
      rw [hattr] at h
      right
      have hfid : fragIdOf f = some (sAttr.drop 5) := by
        unfold fragIdOf
        rw [htid, hattr]
        rfl
      refine ⟨sAttr.drop 5, hfid, ?_⟩
      by_cases hdel : f.isDeleted = true
      · rw [hdel] at h
        simp only [if_true] at h
        exact Or.inr (Or.inl ⟨hdel, parseDeleted_ok_cases _ _ _ _ _ hz h⟩)
      · have hdf : f.isDeleted = false := by simpa using hdel
        rw [hdf] at h
        simp only [Bool.false_eq_true, if_false] at h
        rcases parseLive_ok_cases _ _ _ _ _ _ hz h with ⟨hzf, hsh⟩ | ⟨hzt, hsh⟩
        · exact Or.inl ⟨hdf, hzf, hsh⟩
        · exact Or.inr (Or.inr ⟨hdf, hzt, hsh⟩)
    | none =>
      rw [hattr] at h
      exact absurd h (by simp)

/-! ### Preservation of the builder invariant -/

theorem mem_addThread_of_mem (l : List String) (t x : String) (h : x ∈ l) :
    x ∈ addThread l t := by
  unfold addThread
  split
  · exact h
  · exact List.mem_append_left _ h

theorem mem_addThread_self (l : List String) (t : String) : t ∈ addThread l t := by
  unfold addThread
  split
  · assumption
  · simp

theorem zOk_step (st st2 : PState) (hz : zOkProp st)
    (hlen : st.heap.length ≤ st2.heap.length)
    (hold : ∀ i, i < st.heap.length →
      (st2.heap[i]!).parent = (st.heap[i]!).parent ∧ (st2.heap[i]!).id = (st.heap[i]!).id)
    (hroots : ∀ r ∈ st.roots, r ∈ st2.roots)
    (hrootsB : ∀ r ∈ st2.roots, r < st2.heap.length)
    (hparsedB : ∀ p ∈ st2.parsed, p.2 < st2.heap.length)
    (hthreads : ∀ t ∈ st.threads, t ∈ st2.threads)
    (hnew : ∀ i, st.heap.length ≤ i → i < st2.heap.length →
      (∀ q, (st2.heap[i]!).parent = some q → q < st2.heap.length) ∧
      ((st2.heap[i]!).parent = none →
        (st2.heap[i]!).id ∈ rootIdsOf st2.heap st2.roots ∨
        (st2.heap[i]!).id ∈ st2.threads)) :
    zOkProp st2 := by
  obtain ⟨hr, hp, hpar, horph⟩ := hz
  refine ⟨hrootsB, hparsedB, ?_, ?_⟩
  · intro i hi q hq
    by_cases hilt : i < st.heap.length
    · rw [(hold i hilt).1] at hq
      have := hpar i hilt q hq
      omega
    · exact (hnew i (by omega) hi).1 q hq
  · intro i hi hpnone
    by_cases hilt : i < st.heap.length
    · rw [(hold i hilt).1] at hpnone
      rcases horph i hilt hpnone with hin | hin
      · left
        rw [(hold i hilt).2]
        unfold rootIdsOf at hin ⊢
        simp only [List.mem_map] at hin ⊢
        obtain ⟨r, hrmem, hrid⟩ := hin
        refine ⟨r, hroots r hrmem, ?_⟩
        rw [(hold r (hr r hrmem)).2]
        exact hrid
      · right
        rw [(hold i hilt).2]
        exact hthreads _ hin
    · exact (hnew i (by omega) hi).2 hpnone

theorem zOk_rootShape (st st2 : PState) (node : CNode) (id : String) (hz : zOkProp st)
    (hs : rootShape st node id st2) : zOkProp st2 := by
  obtain ⟨hpar, hch, hid, rfl⟩ := hs
  apply zOk_step st _ hz
  · simp
  · intro i hi
    rw [getBang_append_left _ _ _ hi]
    exact ⟨rfl, rfl⟩
  · intro r hr
    exact List.mem_append_left _ hr
  · intro r hr
    simp only [List.mem_append, List.mem_singleton] at hr
    rcases hr with hr | hr
    · have := hz.1 r hr
      simp
      omega
    · subst hr
      simp
  · intro p hp
    rcases List.mem_cons.mp hp with hp | hp
    · subst hp
      simp
    · have := hz.2.1 p hp
      simp
      omega
  · intro t ht
    exact ht
  · intro i h1 h2
    simp only [List.length_append, List.length_singleton] at h2
    have hieq : i = st.heap.length := by omega
    subst hieq
    rw [getBang_concat]
    constructor
    · intro q hq
      rw [hpar] at hq
      exact Option.noConfusion hq
    · intro _
      left
      unfold rootIdsOf
      simp only [List.mem_map]
      refine ⟨st.heap.length, ?_, ?_⟩
      · simp
      · rw [getBang_concat]

theorem zOk_attachShape (st st2 : PState) (node : CNode) (id : String) (hz : zOkProp st)
    (hs : attachShape st node id st2) : zOkProp st2 := by
  obtain ⟨pIdx, hpar, hch, hid, hplt, hidne, rfl⟩ := hs
  have hlen0 : (st.heap ++ [node]).length = st.heap.length + 1 := by simp
  have hset1len : ((st.heap ++ [node]).set pIdx
      { st.heap[pIdx]! with
        children := (st.heap[pIdx]!).children ++ [st.heap.length] }).length
      = st.heap.length + 1 := by simp
  have hplen : pIdx ≠ st.heap.length := by omega
  have hat : ∀ j, j < st.heap.length → j ≠ pIdx →
      (((st.heap ++ [node]).set pIdx
        { st.heap[pIdx]! with
          children := (st.heap[pIdx]!).children ++ [st.heap.length] }).set
        st.heap.length { node with parent := some pIdx })[j]! = st.heap[j]! := by
    intro j hj hjp
    rw [getBang_set_ne _ _ _ _ (by omega), getBang_set_ne _ _ _ _ (fun hc => hjp hc.symm),
      getBang_append_left _ _ _ hj]
  have hatp : (((st.heap ++ [node]).set pIdx
      { st.heap[pIdx]! with
        children := (st.heap[pIdx]!).children ++ [st.heap.length] }).set
      st.heap.length { node with parent := some pIdx })[pIdx]!
      = { st.heap[pIdx]! with
          children := (st.heap[pIdx]!).children ++ [st.heap.length] } := by
    rw [getBang_set_ne _ _ _ _ (by omega), getBang_set_self]
    rw [hlen0]
    omega
  have hatn : (((st.heap ++ [node]).set pIdx
      { st.heap[pIdx]! with
        children := (st.heap[pIdx]!).children ++ [st.heap.length] }).set
      st.heap.length { node with parent := some pIdx })[st.heap.length]!
      = { node with parent := some pIdx } := by
    rw [getBang_set_self]
    rw [hset1len]
    omega
  apply zOk_step st _ hz
  · simp
  · intro i hi
    by_cases hip : i = pIdx
    · subst hip
      rw [hatp]
      exact ⟨rfl, rfl⟩
    · rw [hat i hi hip]
      exact ⟨rfl, rfl⟩
  · intro r hr
    exact hr
  · intro r hr
    have := hz.1 r hr
    simp only [List.length_set]
    omega
  · intro p hp
    rcases List.mem_cons.mp hp with hp | hp
    · subst hp
      simp
    · have := hz.2.1 p hp
      simp only [List.length_set]
      omega
  · intro t ht
    exact ht
  · intro i h1 h2
    simp only [List.length_set, List.length_append, List.length_singleton] at h2
    have hieq : i = st.heap.length := by omega
    subst hieq
    rw [hatn]
    constructor
    · intro q hq
      simp only at hq
      injection hq with hq2
      subst hq2
      simp only [List.length_set]
      omega
    · intro hcontra
      simp only at hcontra
      exact Option.noConfusion hcontra

theorem zOk_zipRootShape (st st2 : PState) (id : String) (hz : zOkProp st)
    (hs : zipRootShape st id st2) : zOkProp st2 := by
  rw [zipRootShape] at hs
  subst hs
  apply zOk_step st _ hz
  · simp
  · intro i hi
    rw [getBang_append_left _ _ _ hi]
    exact ⟨rfl, rfl⟩
  · intro r hr
    exact hr
  · intro r hr
    have := hz.1 r hr
    simp
    omega
  · intro p hp
    rcases List.mem_cons.mp hp with hp | hp
    · subst hp
      simp
    · have := hz.2.1 p hp
      simp
      omega
  · intro t ht
    exact mem_addThread_of_mem _ _ _ ht
  · intro i h1 h2
    simp only [List.length_append, List.length_singleton] at h2
    have hieq : i = st.heap.length := by omega
    subst hieq
    rw [getBang_concat]
    constructor
    · intro q hq
      exact Option.noConfusion hq
    · intro _
      right
      exact mem_addThread_self _ _

theorem zOk_zipAttachShape (st st2 : PState) (id : String) (hz : zOkProp st)
    (hs : zipAttachShape st id st2) : zOkProp st2 := by
  obtain ⟨pIdx, thr2, hplt, hidne, hthr, rfl⟩ := hs
  have hlen0 : (st.heap ++ [CNode.zipped id]).length = st.heap.length + 1 := by simp
  apply zOk_step st _ hz
  · simp
  · intro i hi
    rw [getBang_set_ne _ _ _ _ (by omega), getBang_append_left _ _ _ hi]
    exact ⟨rfl, rfl⟩
  · intro r hr
    exact hr
  · intro r hr
    have := hz.1 r hr
    simp only [List.length_set]
    omega
  · intro p hp
    rcases List.mem_cons.mp hp with hp | hp
    · subst hp
      simp
    · have := hz.2.1 p hp
      simp only [List.length_set]
      omega
  · intro t ht
    rcases hthr with hthr | ⟨t2, hthr⟩
    · subst hthr
      exact ht
    · subst hthr
      exact mem_addThread_of_mem _ _ _ ht
  · intro i h1 h2
    simp only [List.length_set, List.length_append, List.length_singleton] at h2
    have hieq : i = st.heap.length := by omega
    subst hieq
    rw [getBang_set_self _ _ _ (by rw [hlen0]; omega)]
    constructor
    · intro q hq
      simp only at hq
      injection hq with hq2
      subst hq2
      simp only [List.length_set]
      omega
    · intro hcontra
      simp only at hcontra
      exact Option.noConfusion hcontra

theorem zOk_seemoreShape (st st2 : PState) (hz : zOkProp st)
    (hs : seemoreShape st st2) : zOkProp st2 := by
  obtain ⟨p, rfl⟩ := hs
  apply zOk_step st _ hz
  · simp
  · intro i hi
    exact ⟨rfl, rfl⟩
  · intro r hr
    exact hr
  · exact hz.1
  · exact hz.2.1
  · intro t ht
    exact mem_addThread_of_mem _ _ _ ht
  · intro i h1 h2
    have h3 : i < st.heap.length := by simpa using h2
    omega

theorem processOne_zOk (rr : Option String) (prev : List Fragment) (f : Fragment)
    (st st2 : PState) (hz : zOkProp st) (h : processOne rr prev f st = .ok st2) :
    zOkProp st2 := by
  rcases processOne_ok_cases rr prev f st st2 hz h with ⟨_, hsh⟩ | ⟨id, _, hcase⟩
  · exact zOk_seemoreShape _ _ hz hsh
  · rcases hcase with ⟨_, _, hsh | hsh⟩ | ⟨_, hsh | hsh⟩ | ⟨_, _, hsh | hsh⟩
    · exact zOk_rootShape _ _ _ _ hz hsh
    · exact zOk_attachShape _ _ _ _ hz hsh
    · exact zOk_rootShape _ _ _ _ hz hsh
    · exact zOk_attachShape _ _ _ _ hz hsh
    · exact zOk_zipRootShape _ _ _ hz hsh
    · exact zOk_zipAttachShape _ _ _ hz hsh

theorem processComments_zOk (rr : Option String) :
    ∀ (frags prev : List Fragment) (st st2 : PState),
    zOkProp st → processComments rr frags prev st = .ok st2 → zOkProp st2 := by
  intro frags
  induction frags with
  | nil =>
    intro prev st st2 hz h
    rw [processComments] at h
    injection h with h2
    subst h2
    exact hz
  | cons f rest ih =>
    intro prev st st2 hz h
    rw [processComments] at h
    split at h
    · exact absurd h (by simp)
    · rename_i st1 hst1
      exact ih (f :: prev) st1 st2 (processOne_zOk rr prev f st st1 hz hst1) h

theorem zOk_init : zOkProp {} := by
  refine ⟨?_, ?_, ?_, ?_⟩
  · intro r hr
    simp at hr
  · intro p hp
    simp at hp
  · intro i hi
    simp at hi
  · intro i hi
    simp at hi

theorem parseEntryComments_zOk (frags : List Fragment) (rr : Option String) (st : PState)
    (h : parseEntryComments frags rr = .ok st) : zOkProp st := by
  unfold parseEntryComments at h
  split at h
  · injection h with h2
    subst h2
    exact zOk_init
  · exact processComments_zOk rr frags [] {} st zOk_init h

/-! ### Claim C1: round-trip shape on all-live documents -/

theorem getBang_cons_succ {α : Type} [Inhabited α] (a : α) (l : List α) (i : Nat) :
    (a :: l)[i+1]! = l[i]! := by
  by_cases h : i < l.length
  · rw [getElem!_pos (a :: l) (i+1) (by simp; omega), getElem!_pos l i h]
    simp
  · rw [getElem!_neg (a :: l) (i+1) (by simp; omega), getElem!_neg l i h]

theorem getBang_cons_zero {α : Type} [Inhabited α] (a : α) (l : List α) :
    (a :: l)[0]! = a := by
  rw [getElem!_pos (a :: l) 0 (by simp)]
  rfl

theorem flatMap_children_set_parent : ∀ (l : List CNode) (p : Nat) (v : CNode),
    v.children = (l[p]!).children →
    (l.set p v).flatMap (fun n => n.children) = l.flatMap (fun n => n.children) := by
  intro l
  induction l with
  | nil =>
    intro p v hv
    simp
  | cons a t ih =>
    intro p v hv
    cases p with
    | zero =>
      rw [getBang_cons_zero] at hv
      simp [List.set, List.flatMap_cons, hv]
    | succ p =>
      rw [getBang_cons_succ] at hv
      simp only [List.set, List.flatMap_cons]
      rw [ih p v hv]

theorem perm_shift (A B : List Nat) (x : Nat) :
    ((A ++ [x]) ++ B).Perm ((A ++ B) ++ [x]) := by
  rw [List.append_assoc, List.append_assoc]
  exact List.Perm.append_left A List.perm_append_comm

theorem flatMap_children_set_append : ∀ (l : List CNode) (p : Nat) (x : Nat), p < l.length →
    ((l.set p { l[p]! with children := (l[p]!).children ++ [x] }).flatMap
      (fun n => n.children)).Perm (l.flatMap (fun n => n.children) ++ [x]) := by
  intro l
  induction l with
  | nil =>
    intro p x hp
    simp at hp
  | cons a t ih =>
    intro p x hp
    cases p with
    | zero =>
      simp only [getBang_cons_zero, List.set, List.flatMap_cons]
      exact perm_shift a.children (t.flatMap (fun n => n.children)) x
    | succ p =>
      simp only [getBang_cons_succ, List.set, List.flatMap_cons]
      have hp2 : p < t.length := by simpa using hp
      have hstep := List.Perm.append_left a.children (ih p x hp2)
      rw [← List.append_assoc] at hstep
      exact hstep

theorem perm_snoc_outside (A B : List Nat) (n : Nat)
    (h : (A ++ B).Perm (List.range n)) :
    (A ++ (B ++ [n])).Perm (List.range (n+1)) := by
  rw [List.range_succ, ← List.append_assoc]
  exact h.append_right [n]

theorem perm_snoc_middle (A B : List Nat) (n : Nat)
    (h : (A ++ B).Perm (List.range n)) :
    ((A ++ [n]) ++ B).Perm (List.range (n+1)) := by
  rw [List.range_succ]
  exact (perm_shift A B n).trans (h.append_right [n])

theorem perm_step_root (st st2 : PState) (node : CNode) (id : String)
    (hs : rootShape st node id st2)
    (hperm : (placements st.heap st.roots).Perm (List.range st.heap.length)) :
    (placements st2.heap st2.roots).Perm (List.range st2.heap.length) ∧
    st2.threads = st.threads ∧ st2.heap.length = st.heap.length + 1 := by
  obtain ⟨hpar, hch, hid, rfl⟩ := hs
  refine ⟨?_, rfl, by simp⟩
  unfold placements
  dsimp only
  rw [List.flatMap_append]
  simp only [List.flatMap_cons, List.flatMap_nil, hch, List.append_nil]
  have hr : (st.heap ++ [node]).length = st.heap.length + 1 := by simp
  rw [hr]
  exact perm_snoc_middle _ _ _ hperm

theorem perm_step_attach (st st2 : PState) (node : CNode) (id : String)
    (hs : attachShape st node id st2)
    (hperm : (placements st.heap st.roots).Perm (List.range st.heap.length)) :
    (placements st2.heap st2.roots).Perm (List.range st2.heap.length) ∧
    st2.threads = st.threads ∧ st2.heap.length = st.heap.length + 1 := by
  obtain ⟨pIdx, hpar, hch, hid, hplt, hidne, rfl⟩ := hs
  refine ⟨?_, rfl, by simp⟩
  unfold placements
  dsimp only
  have e1 : (st.heap ++ [node])[pIdx]! = st.heap[pIdx]! := getBang_append_left _ _ _ hplt
  have hlen2 : (((st.heap ++ [node]).set pIdx
      { st.heap[pIdx]! with
        children := (st.heap[pIdx]!).children ++ [st.heap.length] }).set
      st.heap.length { node with parent := some pIdx }).length = st.heap.length + 1 := by
    simp
  rw [hlen2]
  have h1 : ((st.heap ++ [node]).set pIdx
      { st.heap[pIdx]! with
        children := (st.heap[pIdx]!).children ++ [st.heap.length] })[st.heap.length]!
      = node := by
    rw [getBang_set_ne _ _ _ _ (by omega), getBang_concat]
  rw [flatMap_children_set_parent _ st.heap.length { node with parent := some pIdx }
    (by rw [h1])]
  rw [← e1]
  have h2 := flatMap_children_set_append (st.heap ++ [node]) pIdx st.heap.length
    (by simp; omega)
  have h3 : (st.heap ++ [node]).flatMap (fun n => n.children)
      = st.heap.flatMap (fun n => n.children) := by
    rw [List.flatMap_append]
    simp [List.flatMap_cons, hch]
  rw [h3] at h2
  unfold placements at hperm
  exact (List.Perm.append_left st.roots h2).trans (perm_snoc_outside _ _ _ hperm)

theorem processComments_C1 (rr : Option String) :
    ∀ (frags prev : List Fragment) (st st2 : PState),
    (∀ f ∈ frags, liveFragOk f) → zOkProp st →
    (placements st.heap st.roots).Perm (List.range st.heap.length) →
    processComments rr frags prev st = .ok st2 →
    (placements st2.heap st2.roots).Perm (List.range st2.heap.length) ∧
    st2.threads = st.threads ∧ st2.heap.length = st.heap.length + frags.length := by
  intro frags
  induction frags with
  | nil =>
    intro prev st st2 hlive hz hperm h
    rw [processComments] at h
    injection h with h2
    subst h2
    exact ⟨hperm, rfl, by simp⟩
  | cons f rest ih =>
    intro prev st st2 hlive hz hperm h
    rw [processComments] at h
    split at h
    · exact absurd h (by simp)
    · rename_i st1 hst1
      have hf := hlive f (List.mem_cons_self _ _)
      obtain ⟨hdel, hzip, hsome⟩ := hf
      rcases processOne_ok_cases rr prev f st st1 hz hst1 with ⟨hnone, _⟩ | ⟨id, _, hcase⟩
      · rw [hnone] at hsome
        exact absurd hsome (by simp)
      · have hstep : (placements st1.heap st1.roots).Perm (List.range st1.heap.length) ∧
            st1.threads = st.threads ∧ st1.heap.length = st.heap.length + 1 := by
          rcases hcase with ⟨_, _, hsh | hsh⟩ | ⟨hdt, _⟩ | ⟨_, hzt, _⟩
          · exact perm_step_root _ _ _ _ hsh hperm
          · exact perm_step_attach _ _ _ _ hsh hperm
          · rw [hdel] at hdt
            exact absurd hdt (by simp)
          · rw [hzip] at hzt
            exact absurd hzt (by simp)
        obtain ⟨hperm1, hthr1, hlen1⟩ := hstep
        have hrest := ih (f :: prev) st1 st2
          (fun g hg => hlive g (List.mem_cons_of_mem _ hg))
          (processOne_zOk rr prev f st st1 hz hst1) hperm1 h
        refine ⟨hrest.1, ?_, ?_⟩
        · rw [hrest.2.1, hthr1]
        · rw [hrest.2.2, hlen1]
          simp only [List.length_cons]
          omega

/-- C1: on a document whose comment fragments are all live (none zipped,
none deleted, all with valid ids), a successful `parse_entry` allocates
exactly one node per fragment, places each exactly once — the root list
together with all children lists is a permutation of the allocation indices
— leaves the thread-id set empty (so the post-walk root filter removes
nothing), and the root count plus the total number of child slots equals the
number of fragments. -/
theorem claim_C1 (doc : EntryDoc) (rr : Option String) (r : EntryParseResult)
    (hok : parseEntry doc rr = .ok r)
    (hlive : ∀ f ∈ doc.frags, liveFragOk f) :
    r.heap.length = doc.frags.length ∧
    r.threads = [] ∧
    (placements r.heap r.comments).Perm (List.range doc.frags.length) ∧
    r.comments.length + (r.heap.flatMap (fun n => n.children)).length
      = doc.frags.length := by
  unfold parseEntry at hok
  split at hok
  · exact absurd hok (by simp)
  · split at hok
    · exact absurd hok (by simp)
    · rename_i community hcom st hst
      have hz : zOkProp st := parseEntryComments_zOk _ _ _ hst
      have hshape : (placements st.heap st.roots).Perm (List.range st.heap.length) ∧
          st.threads = [] ∧ st.heap.length = doc.frags.length := by
        unfold parseEntryComments at hst
        split at hst
        · rename_i hempty
          injection hst with h2
          subst h2
          refine ⟨by simp [placements], rfl, ?_⟩
          simp only [List.isEmpty_iff] at hempty
          simp [hempty]
        · have := processComments_C1 rr doc.frags [] {} st hlive zOk_init
            (by simp [placements]) hst
          exact ⟨this.1, this.2.1, by have := this.2.2; simpa using this⟩
      obtain ⟨hperm, hthr, hlen⟩ := hshape
      injection hok with h2
      subst h2
      have hfilter : st.roots.filter (fun r => decide ((st.heap[r]!).id ∉ st.threads))
          = st.roots := by
        apply List.filter_eq_self.mpr
        intro a ha
        rw [hthr]
        simp
      dsimp only
      rw [hfilter]
      refine ⟨hlen, hthr, by rw [← hlen]; exact hperm, ?_⟩
      have hplen : (placements st.heap st.roots).length = doc.frags.length := by
        rw [hperm.length_eq, List.length_range, hlen]
      unfold placements at hplen
      rw [List.length_append] at hplen
      exact hplen

/-- C1 applied: the three-fragment all-live document yields three nodes, an
empty thread set, a full placement permutation, and one root plus two child
slots. -/
theorem claim_C1_witness :
    (∀ f ∈ liveDoc.frags, liveFragOk f) ∧
    ((parseEntry liveDoc none).map (fun r => r.heap.length) = .ok 3 ∧
     (parseEntry liveDoc none).map (fun r => r.threads) = .ok [] ∧
     (parseEntry liveDoc none).map
       (fun r => r.comments.length + (r.heap.flatMap (fun n => n.children)).length)
       = .ok 3) ∧
    (liveRes.heap.length = liveDoc.frags.length ∧
     liveRes.threads = [] ∧
     (placements liveRes.heap liveRes.comments).Perm (List.range liveDoc.frags.length) ∧
     liveRes.comments.length + (liveRes.heap.flatMap (fun n => n.children)).length
       = liveDoc.frags.length) := by
  refine ⟨?_, ⟨by decide, by decide, by decide⟩, ?_⟩
  · intro f hf
    fin_cases hf <;> exact ⟨by decide, by decide, by decide⟩
  · exact claim_C1 liveDoc none liveRes (by decide)
      (by intro f hf; fin_cases hf <;> exact ⟨by decide, by decide, by decide⟩)

/-! ### Claim C4: duplicate children -/

/-- C4 counterexample: a document in which two distinct live fragments carry
the same id 2, both linked below root 1, parses without any error and leaves
root 1 — persisted in the comment list — with two children both bearing
id 2.  `add_child` does not fail loudly on the duplicate identifier, because
its membership check compares whole comment values including the parent
back-reference, which the second fresh child (parent still unset) never
matches. -/
theorem claim_C4_counterexample :
    (parseEntry dupDoc none).map
      (fun r => ((r.heap[0]!).children.map (fun i => (r.heap[i]!).id), r.comments))
      = .ok (["2", "2"], [0]) := by
  decide

theorem map_id_set : ∀ (l : List CNode) (p : Nat) (v : CNode),
    v.id = (l[p]!).id →
    (l.set p v).map (fun n => n.id) = l.map (fun n => n.id) := by
  intro l
  induction l with
  | nil =>
    intro p v hv
    simp
  | cons a t ih =>
    intro p v hv
    cases p with
    | zero =>
      rw [getBang_cons_zero] at hv
      simp [List.set, hv]
    | succ p =>
      rw [getBang_cons_succ] at hv
      simp only [List.set, List.map_cons]
      rw [ih p v hv]

theorem childOk_root (st st2 : PState) (node : CNode) (id : String)
    (hs : rootShape st node id st2) (hc : childOkProp st) :
    childOkProp st2 ∧
    st2.heap.map (fun n => n.id) = st.heap.map (fun n => n.id) ++ [id] := by
  obtain ⟨hpar, hch, hid, rfl⟩ := hs
  constructor
  · intro n hn
    dsimp only at hn ⊢
    rcases List.mem_append.mp hn with hn | hn
    · obtain ⟨hpw, hb⟩ := hc n hn
      refine ⟨hpw, fun c hcm => ?_⟩
      have := hb c hcm
      simp
      omega
    · rw [List.mem_singleton] at hn
      subst hn
      rw [hch]
      exact ⟨List.Pairwise.nil, by simp⟩
  · dsimp only
    rw [List.map_append]
    simp [hid]

theorem childOk_attach (st st2 : PState) (node : CNode) (id : String)
    (hs : attachShape st node id st2) (hc : childOkProp st) :
    childOkProp st2 ∧
    st2.heap.map (fun n => n.id) = st.heap.map (fun n => n.id) ++ [id] := by
  obtain ⟨pIdx, hpar, hch, hid, hplt, hidne, rfl⟩ := hs
  have e1 : (st.heap ++ [node])[pIdx]! = st.heap[pIdx]! := getBang_append_left _ _ _ hplt
  have hmemP : st.heap[pIdx]! ∈ st.heap := by
    rw [getElem!_pos st.heap pIdx hplt]
    exact List.getElem_mem hplt
  have h1 : ((st.heap ++ [node]).set pIdx
      { st.heap[pIdx]! with
        children := (st.heap[pIdx]!).children ++ [st.heap.length] })[st.heap.length]!
      = node := by
    rw [getBang_set_ne _ _ _ _ (by omega), getBang_concat]
  constructor
  · intro n hn
    dsimp only at hn ⊢
    have hlen2 : (((st.heap ++ [node]).set pIdx
        { st.heap[pIdx]! with
          children := (st.heap[pIdx]!).children ++ [st.heap.length] }).set
        st.heap.length { node with parent := some pIdx }).length
        = st.heap.length + 1 := by
      simp
    rw [hlen2]
    rcases List.mem_or_eq_of_mem_set hn with hn | rfl
    · rcases List.mem_or_eq_of_mem_set hn with hn | rfl
      · rcases List.mem_append.mp hn with hn | hn
        · obtain ⟨hpw, hb⟩ := hc n hn
          refine ⟨hpw, fun c hcm => ?_⟩
          have := hb c hcm
          omega
        · rw [List.mem_singleton] at hn
          subst hn
          rw [hch]
          exact ⟨List.Pairwise.nil, by simp⟩
      · obtain ⟨hpw, hb⟩ := hc (st.heap[pIdx]!) hmemP
        constructor
        · rw [List.pairwise_append]
          refine ⟨hpw, List.pairwise_singleton _ _, ?_⟩
          intro x hx y hy
          rw [List.mem_singleton] at hy
          subst hy
          exact hb x hx
        · intro c hcm
          rcases List.mem_append.mp hcm with hcm | hcm
          · have := hb c hcm
            omega
          · rw [List.mem_singleton] at hcm
            omega
    · rw [hch]
      exact ⟨List.Pairwise.nil, by simp⟩
  · dsimp only
    rw [map_id_set _ st.heap.length { node with parent := some pIdx } (by rw [h1])]
    rw [map_id_set _ pIdx _ (by rw [e1])]
    rw [List.map_append]
    simp [hid]

theorem childOk_zipRoot (st st2 : PState) (id : String)
    (hs : zipRootShape st id st2) (hc : childOkProp st) :
    childOkProp st2 ∧
    st2.heap.map (fun n => n.id) = st.heap.map (fun n => n.id) ++ [id] := by
  rw [zipRootShape] at hs
  subst hs
  constructor
  · intro n hn
    dsimp only at hn ⊢
    rcases List.mem_append.mp hn with hn | hn
    · obtain ⟨hpw, hb⟩ := hc n hn
      refine ⟨hpw, fun c hcm => ?_⟩
      have := hb c hcm
      simp
      omega
    · rw [List.mem_singleton] at hn
      subst hn
      exact ⟨List.Pairwise.nil, by simp [CNode.zipped]⟩
  · dsimp only
    rw [List.map_append]
    rfl

theorem childOk_zipAttach (st st2 : PState) (id : String)
    (hs : zipAttachShape st id st2) (hc : childOkProp st) :
    childOkProp st2 ∧
    st2.heap.map (fun n => n.id) = st.heap.map (fun n => n.id) ++ [id] := by
  obtain ⟨pIdx, thr2, hplt, hidne, hthr, rfl⟩ := hs
  constructor
  · intro n hn
    dsimp only at hn ⊢
    have hlen2 : ((st.heap ++ [CNode.zipped id]).set st.heap.length
        { CNode.zipped id with parent := some pIdx }).length = st.heap.length + 1 := by
      simp
    rw [hlen2]
    rcases List.mem_or_eq_of_mem_set hn with hn | rfl
    · rcases List.mem_append.mp hn with hn | hn
      · obtain ⟨hpw, hb⟩ := hc n hn
        refine ⟨hpw, fun c hcm => ?_⟩
        have := hb c hcm
        omega
      · rw [List.mem_singleton] at hn
        subst hn
        exact ⟨List.Pairwise.nil, by simp [CNode.zipped]⟩
    · exact ⟨List.Pairwise.nil, by simp [CNode.zipped]⟩
  · dsimp only
    rw [map_id_set _ st.heap.length { CNode.zipped id with parent := some pIdx }
      (by rw [getBang_concat])]
    rw [List.map_append]
    rfl

theorem processComments_childOk (rr : Option String) :
    ∀ (frags prev : List Fragment) (st st2 : PState),
    zOkProp st → childOkProp st →
    processComments rr frags prev st = .ok st2 →
    childOkProp st2 ∧
    st2.heap.map (fun n => n.id)
      = st.heap.map (fun n => n.id) ++ frags.filterMap fragIdOf := by
  intro frags
  induction frags with
  | nil =>
    intro prev st st2 hz hc h
    rw [processComments] at h
    injection h with h2
    subst h2
    exact ⟨hc, by simp⟩
  | cons f rest ih =>
    intro prev st st2 hz hc h
    rw [processComments] at h
    split at h
    · exact absurd h (by simp)
    · rename_i st1 hst1
      have hz1 := processOne_zOk rr prev f st st1 hz hst1
      have hstep : childOkProp st1 ∧
          st1.heap.map (fun n => n.id)
            = st.heap.map (fun n => n.id) ++ (fragIdOf f).toList := by
        rcases processOne_ok_cases rr prev f st st1 hz hst1 with ⟨hnone, hsh⟩ | ⟨id, hfid, hcase⟩
        · obtain ⟨p, rfl⟩ := hsh
          rw [hnone]
          exact ⟨fun n hn => hc n hn, by simp⟩
        · rw [hfid]
          rcases hcase with ⟨_, _, hsh | hsh⟩ | ⟨_, hsh | hsh⟩ | ⟨_, _, hsh | hsh⟩
          · exact childOk_root _ _ _ _ hsh hc
          · exact childOk_attach _ _ _ _ hsh hc
          · exact childOk_root _ _ _ _ hsh hc
          · exact childOk_attach _ _ _ _ hsh hc
          · exact childOk_zipRoot _ _ _ hsh hc
          · exact childOk_zipAttach _ _ _ hsh hc
      obtain ⟨hc1, hids1⟩ := hstep
      obtain ⟨hc2, hids2⟩ := ih (f :: prev) st1 st2 hz1 hc1 h
      refine ⟨hc2, ?_⟩
      rw [hids2, hids1, List.append_assoc]
      cases hf : fragIdOf f <;> simp [List.filterMap_cons, hf]

/-- C4 (amended): `add_child` fails loudly only when the child's identifier
equals the parent's own identifier; its duplicate check compares entire
comment values including the parent back-reference, so a freshly constructed
child (parent unset) is appended silently whenever the already-attached
children have their parent set, even when it duplicates an existing child's
identifier.  Consequently the no-duplicate-children-by-id invariant holds
exactly when the document's fragment ids are pairwise distinct. -/
theorem claim_C4_amended :
    (∀ (heap : List CNode) (pIdx cIdx : Nat),
        (heap[cIdx]!).id = (heap[pIdx]!).id →
        addChild heap pIdx cIdx = .error (.exn "cannot add self as child")) ∧
    (∀ (heap : List CNode) (pIdx cIdx : Nat),
        (heap[cIdx]!).id ≠ (heap[pIdx]!).id →
        (heap[cIdx]!).parent = none →
        (∀ j ∈ (heap[pIdx]!).children, ((heap[j]!).parent).isSome) →
        addChild heap pIdx cIdx =
          .ok (heap.set pIdx
            { heap[pIdx]! with children := (heap[pIdx]!).children ++ [cIdx] })) ∧
    (∀ (doc : EntryDoc) (rr : Option String) (r : EntryParseResult),
        parseEntry doc rr = .ok r →
        (doc.frags.filterMap fragIdOf).Nodup →
        ∀ p ∈ r.heap, (p.children.map (fun i => (r.heap[i]!).id)).Nodup) := by
  refine ⟨?_, ?_, ?_⟩
  · intro heap pIdx cIdx hid
    unfold addChild
    have hbeq : ((heap[cIdx]!).id == (heap[pIdx]!).id) = true := by
      simp [hid]
    simp only [hbeq, if_true]
  · intro heap pIdx cIdx hne hcp hchild
    unfold addChild
    have hbeq : ((heap[cIdx]!).id == (heap[pIdx]!).id) = false := beq_eq_false_iff_ne.mpr hne
    simp only [hbeq, Bool.false_eq_true, if_false]
    have hany : ((heap[pIdx]!).children.any
        (fun j => pyEq heap (heap.length + 1) cIdx j)) = false := by
      rw [List.any_eq_false]
      intro j hj
      obtain ⟨q, hq⟩ := Option.isSome_iff_exists.mp (hchild j hj)
      simp [pyEq, hcp, hq]
    simp only [hany, Bool.false_eq_true, if_false]
  · intro doc rr r hok hnodup p hp
    unfold parseEntry at hok
    split at hok
    · exact absurd hok (by simp)
    · split at hok
      · exact absurd hok (by simp)
      · rename_i community hcom st hst
        injection hok with h2
        subst h2
        dsimp only at hp ⊢
        have hz0 : zOkProp st := parseEntryComments_zOk _ _ _ hst
        have hshape : childOkProp st ∧
            st.heap.map (fun n => n.id) = doc.frags.filterMap fragIdOf := by
          unfold parseEntryComments at hst
          split at hst
          · rename_i hempty
            injection hst with h3
            subst h3
            simp only [List.isEmpty_iff] at hempty
            refine ⟨fun n hn => absurd hn (by simp), ?_⟩
            simp [hempty]
          · have := processComments_childOk rr doc.frags [] {} st zOk_init
              (fun n hn => absurd hn (by simp)) hst
            exact ⟨this.1, by have h4 := this.2; simpa using h4⟩
        obtain ⟨hchild, hids⟩ := hshape
        have hidsnd : (st.heap.map (fun n => n.id)).Nodup := by
          rw [hids]
          exact hnodup
        obtain ⟨hpw, hb⟩ := hchild p hp
        have hnd : p.children.Nodup := hpw.imp (fun hlt => Nat.ne_of_lt hlt)
        apply hnd.map_on
        intro x hx y hy hfe
        have hxl := hb x hx
        have hyl := hb y hy
        rw [getElem!_pos st.heap x hxl, getElem!_pos st.heap y hyl] at hfe
        have hmx : x < (st.heap.map (fun n => n.id)).length := by
          simp
          omega
        have hmy : y < (st.heap.map (fun n => n.id)).length := by
          simp
          omega
        apply (List.Nodup.getElem_inj_iff hidsnd).mp
        rw [List.getElem_map, List.getElem_map]
        exact hfe
        exact hmy
        exact hmx

/-- C4 amended, applied: a self-id attachment fails loudly; a fresh child
with a new id is appended; the distinct-id document yields children lists
with pairwise distinct identifiers. -/
theorem claim_C4_witness :
    addChild [{ id := "1", deleted := false }, { id := "1", deleted := false }] 0 1
      = .error (.exn "cannot add self as child") ∧
    addChild [{ id := "1", deleted := false }, { id := "2", deleted := false }] 0 1
      = .ok [{ id := "1", deleted := false, children := [1] },
             { id := "2", deleted := false }] ∧
    (∀ p ∈ liveRes.heap, (p.children.map (fun i => (liveRes.heap[i]!).id)).Nodup) := by
  refine ⟨?_, ?_, ?_⟩
  · exact claim_C4_amended.1 [{ id := "1", deleted := false }, { id := "1", deleted := false }]
      0 1 (by decide)
  · exact claim_C4_amended.2.1
      [{ id := "1", deleted := false }, { id := "2", deleted := false }] 0 1
      (by decide) (by decide) (by decide)
  · exact claim_C4_amended.2.2 liveDoc none liveRes (by decide) (by decide)

end LiveCorpus
